import Mathlib

/-!
Shallow embedding of the sparse-triplet matrix kernels of
`hiopMatrixRajaSparseTriplet` / `hiopMatrixRajaSymSparseTriplet`
(file `hiopMatrixRajaSparseTriplet.cpp`), together with theorems checking
the natural-language specification against the code.

Doubles are embedded as rationals (exact arithmetic), the parallel device
arrays `iRow_`, `jCol_`, `values_` as one list of triplets, and vectors /
dense matrices as total functions from indices.  The RAJA data-parallel
scatter-add loops (whose accumulations are atomic, hence equivalent to some
serialization) are embedded as sequential folds over the triplet list in
storage order.
-/

namespace HiopSparse

/-- One stored entry of a triplet matrix: `(iRow_[k], jCol_[k], values_[k])`. -/
structure Triplet where
  row : ℕ
  col : ℕ
  val : ℚ
deriving DecidableEq, Repr

instance : Inhabited Triplet := ⟨⟨0, 0, 0⟩⟩

/-- The sparse triplet matrix `hiopMatrixRajaSparseTriplet`: shape
`nrows × ncols` with the three parallel arrays represented as one list of
triplets (`nnz` is the length of the list). -/
structure SparseTriplet where
  nrows : ℕ
  ncols : ℕ
  triplets : List Triplet
deriving DecidableEq, Repr

/-- Number of stored nonzeros (the `nnz` field). -/
def SparseTriplet.nnz (A : SparseTriplet) : ℕ := A.triplets.length

/-- The device array `iRow_` of the matrix, as a list of row indices. -/
def SparseTriplet.rowsList (A : SparseTriplet) : List ℕ := A.triplets.map Triplet.row

/-- Phase (a) of `timesVec`/`transTimesVec`: the loop
`for i in [0,n) { y[i] *= beta; }`.  Entries at indices `≥ n` are untouched. -/
def scaleRange (beta : ℚ) (n : ℕ) (y : ℕ → ℚ) : ℕ → ℚ :=
  fun i => if i < n then beta * y i else y i

/-- Phase (b) of `hiopMatrixRajaSparseTriplet::timesVec`: the scatter-add loop
`y[iRow_[k]] += alpha * x[jCol_[k]] * values_[k]` over all `nnz` triplets. -/
def scatterAdd (alpha : ℚ) (x : ℕ → ℚ) (ts : List Triplet) (y : ℕ → ℚ) : ℕ → ℚ :=
  ts.foldl (fun y t => Function.update y t.row (y t.row + alpha * x t.col * t.val)) y

/-- The method `hiopMatrixRajaSparseTriplet::timesVec(beta, y, alpha, x)` (raw-pointer
overload): scale `y` over `[0,nrows)` by `beta`, then scatter-add
`alpha * x[jCol_[k]] * values_[k]` into `y[iRow_[k]]`. -/
def timesVec (A : SparseTriplet) (beta : ℚ) (y : ℕ → ℚ) (alpha : ℚ) (x : ℕ → ℚ) : ℕ → ℚ :=
  scatterAdd alpha x A.triplets (scaleRange beta A.nrows y)

/-- Phase (b) of `hiopMatrixRajaSparseTriplet::transTimesVec`: the scatter-add
loop `y[jCol_[k]] += alpha * x[iRow_[k]] * values_[k]`. -/
def scatterAddT (alpha : ℚ) (x : ℕ → ℚ) (ts : List Triplet) (y : ℕ → ℚ) : ℕ → ℚ :=
  ts.foldl (fun y t => Function.update y t.col (y t.col + alpha * x t.row * t.val)) y

/-- The method `hiopMatrixRajaSparseTriplet::transTimesVec(beta, y, alpha, x)`: scale `y`
over `[0,ncols)` by `beta`, then scatter-add with row/col roles swapped. -/
def transTimesVec (A : SparseTriplet) (beta : ℚ) (y : ℕ → ℚ) (alpha : ℚ) (x : ℕ → ℚ) : ℕ → ℚ :=
  scatterAddT alpha x A.triplets (scaleRange beta A.ncols y)

/-- Scatter phase of `hiopMatrixRajaSymSparseTriplet::timesVec`.  The body of
the RAJA loop is, verbatim from the source:
`RAJA::AtomicRef yy(&y[iRow[i]]); yy += alpha*x[jCol[i]]*values[i];
 if(iRow[i] != jCol[i]) yy += alpha*x[iRow[i]]*values[i];` —
note that BOTH accumulations go through `yy`, i.e. into `y[iRow[i]]`. -/
def symScatterAdd (alpha : ℚ) (x : ℕ → ℚ) (ts : List Triplet) (y : ℕ → ℚ) : ℕ → ℚ :=
  ts.foldl (fun y t =>
    let y1 := Function.update y t.row (y t.row + alpha * x t.col * t.val)
    if t.row ≠ t.col then
      Function.update y1 t.row (y1 t.row + alpha * x t.row * t.val)
    else y1) y

/-- The method `hiopMatrixRajaSymSparseTriplet::timesVec(beta, y, alpha, x)` (raw-pointer
overload). -/
def symTimesVec (A : SparseTriplet) (beta : ℚ) (y : ℕ → ℚ) (alpha : ℚ) (x : ℕ → ℚ) : ℕ → ℚ :=
  symScatterAdd alpha x A.triplets (scaleRange beta A.nrows y)

/-- Accumulation `W(r, c) += q` on a dense matrix embedded as a function of
(row, column). -/
def updAdd (W : ℕ → ℕ → ℚ) (r c : ℕ) (q : ℚ) : ℕ → ℕ → ℚ :=
  fun a b => if a = r ∧ b = c then W a b + q else W a b

/-- Applying a list of `((row, col), delta)` accumulations to a dense matrix
in order. -/
def applyAdds (L : List ((ℕ × ℕ) × ℚ)) (W : ℕ → ℕ → ℚ) : ℕ → ℕ → ℚ :=
  L.foldl (fun W p => updAdd W p.1.1 p.1.2 p.2) W

/-- The method `hiopMatrixRajaSparseTriplet::transAddToSymDenseMatrixUpperTriangle`
(the general, non-symmetric class): for every triplet the loop computes
`i = jCol_[it] + row_start`, `j = iRow_[it] + col_start` and performs
`WM(i, j) += alpha * values_[it]`. -/
def transAddToSymDenseUT (A : SparseTriplet) (row_start col_start : ℕ) (alpha : ℚ)
    (W : ℕ → ℕ → ℚ) : ℕ → ℕ → ℚ :=
  A.triplets.foldl
    (fun W t => updAdd W (t.col + row_start) (t.row + col_start) (alpha * t.val)) W

/-- The method `hiopMatrixRajaSymSparseTriplet::transAddToSymDenseMatrixUpperTriangle`:
the loop computes `i = iRow[it] + row_start`, `j = jCol[it] + col_start` and
performs `WM(j, i) += alpha * values[it]` — the written dense entry has row
index `jCol[it] + col_start` and column index `iRow[it] + row_start`. -/
def symTransAddToSymDenseUT (A : SparseTriplet) (row_start col_start : ℕ) (alpha : ℚ)
    (W : ℕ → ℕ → ℚ) : ℕ → ℕ → ℚ :=
  A.triplets.foldl
    (fun W t => updAdd W (t.col + col_start) (t.row + row_start) (alpha * t.val)) W

/-- The method `hiopMatrixRajaSparseTriplet::setToConstant(c)`: fill the value array. -/
def setToConstant (A : SparseTriplet) (c : ℚ) : SparseTriplet :=
  ⟨A.nrows, A.ncols, A.triplets.map (fun t => ⟨t.row, t.col, c⟩)⟩

/-- The method `hiopMatrixRajaSparseTriplet::max_abs_value()`: a `RAJA::ReduceMax`
initialized at `0.0`, folded with `fabs(values[i])` over all `nnz` entries. -/
def max_abs_value (A : SparseTriplet) : ℚ :=
  A.triplets.foldl (fun m t => max m |t.val|) 0

/-- The cursor-advancing inner `while` loop of `allocAndBuildRowStarts`:
`while(it_triplet < nnz && iRow_host_[it_triplet] == i-1) { ...; it_triplet++; }`,
returning the final cursor position.  `r` is the row being scanned (`i-1`). -/
def advanceCursor (rows : List ℕ) (r : ℕ) (it : ℕ) : ℕ :=
  if h : it < rows.length ∧ rows.getD it 0 = r then
    advanceCursor rows r (it + 1)
  else it
termination_by rows.length - it
decreasing_by
  exact Nat.sub_lt_sub_left h.1 (Nat.lt_succ_self it)

/-- The offsets produced by the outer loop of `allocAndBuildRowStarts`:
`idx_start_[0] = 0` and `idx_start_[i]` is the cursor position after the scan
of row `i-1` started at `idx_start_[i-1]`. -/
def rowStartOff (rows : List ℕ) : ℕ → ℕ
  | 0 => 0
  | i + 1 => advanceCursor rows i (rowStartOff rows i)

/-- The method `hiopMatrixRajaSparseTriplet::allocAndBuildRowStarts()`: the built
`idx_start_` array of length `nrows + 1`.  On the `nrows <= 0` early-return
path the source hands back a freshly allocated, never-written buffer of one
`int`; the `fresh` argument models the indeterminate content of that
allocation. -/
def allocAndBuildRowStarts (A : SparseTriplet) (fresh : ℕ) : List ℕ :=
  if A.nrows = 0 then [fresh]
  else (List.range (A.nrows + 1)).map (rowStartOff A.rowsList)

/-- The triplets of row `i` read through the row-start index: the array
entries at positions `k ∈ [idx_start_[i], idx_start_[i+1])`. -/
def rowSliceTriplets (A : SparseTriplet) (i : ℕ) : List Triplet :=
  (List.range' (rowStartOff A.rowsList i)
      (rowStartOff A.rowsList (i + 1) - rowStartOff A.rowsList i)).map
    (fun k => A.triplets.getD k default)

/-- The `(jCol_[k], values_[k])` pairs of row `i`, as read by the weighted
Gram-product kernels. -/
def rowPairs (A : SparseTriplet) (i : ℕ) : List (ℕ × ℚ) :=
  (rowSliceTriplets A i).map (fun t => (t.col, t.val))

/-- The diagonal (`j == i`) accumulation loop of
`addMDinvMtransToDiagBlockOfSymDeMatUTri`:
`for k in [idx_start[i], idx_start[i+1]) acc += values[k]/DM[jCol[k]]*values[k]`. -/
def diagAcc (D : ℕ → ℚ) (l : List (ℕ × ℚ)) : ℚ :=
  (l.map (fun p => p.2 / D p.1 * p.2)).sum

/-- The two-cursor merge-join `while` loop shared by the weighted Gram-product
kernels: while both cursors are in range, on equal column indices accumulate
`values[ki] / DM[jCol[ki]] * values[kj]` and advance both; otherwise advance
the cursor with the smaller column index. -/
def mergeJoin (D : ℕ → ℚ) : List (ℕ × ℚ) → List (ℕ × ℚ) → ℚ
  | (c1, v1) :: t1, (c2, v2) :: t2 =>
    if c1 = c2 then v1 / D c1 * v2 + mergeJoin D t1 t2
    else if c1 < c2 then mergeJoin D t1 ((c2, v2) :: t2)
    else mergeJoin D ((c1, v1) :: t1) t2
  | _, _ => 0
termination_by l1 l2 => l1.length + l2.length

/-- The (mathematical) entry `A[i, c]` of the matrix represented by the
triplet list: sum of stored values at position `(i, c)`. -/
def entryVal (A : SparseTriplet) (i c : ℕ) : ℚ :=
  ((A.triplets.filter (fun t => t.row == i && t.col == c)).map Triplet.val).sum

/-- The value stored for column `c` in a `(column, value)` row list (0 when
the column is absent); used to state merge-join correctness. -/
def lookupV (l : List (ℕ × ℚ)) (c : ℕ) : ℚ :=
  ((l.filter (fun p => p.1 == c)).map Prod.snd).sum

/-- The (mathematical) weighted inner product of rows `i` and `j` of `A`:
`∑_{c < ncols} A[i,c] / D[c] * A[j,c]` — the sum over common columns of
`A[i,k]/D[k]·A[j,k]`, all other terms vanishing. -/
def weightedRowInner (A : SparseTriplet) (D : ℕ → ℚ) (i j : ℕ) : ℚ :=
  ((List.range A.ncols).map (fun c => entryVal A i c / D c * entryVal A j c)).sum

/-- The ordered list of `((row, col), delta)` accumulations performed by
`addMDinvMtransToDiagBlockOfSymDeMatUTri`: for each `i < nrows` first the
diagonal write at `(i+d, i+d)`, then for each `j ∈ (i, nrows)` the
merge-join write at `(i+d, j+d)`. -/
def diagBlockWrites (A : SparseTriplet) (d : ℕ) (alpha : ℚ) (D : ℕ → ℚ) :
    List ((ℕ × ℕ) × ℚ) :=
  (List.range A.nrows).flatMap (fun i =>
    ((i + d, i + d), alpha * diagAcc D (rowPairs A i)) ::
      (List.range' (i + 1) (A.nrows - (i + 1))).map
        (fun j => ((i + d, j + d), alpha * mergeJoin D (rowPairs A i) (rowPairs A j))))

/-- The method `hiopMatrixRajaSparseTriplet::addMDinvMtransToDiagBlockOfSymDeMatUTri
(rowAndCol_dest_start, alpha, D, W)`: for each row `i`, add
`alpha * acc` of the diagonal loop at `WM(i+d, i+d)`, then for each `j > i`
add `alpha *` the merge-join of rows `i` and `j` at `WM(i+d, j+d)`. -/
def addMDinvMtransToDiagBlockOfSymDeMatUTri (A : SparseTriplet) (d : ℕ) (alpha : ℚ)
    (D : ℕ → ℚ) (W : ℕ → ℕ → ℚ) : ℕ → ℕ → ℚ :=
  (List.range A.nrows).foldl (fun W0 i =>
    (List.range' (i + 1) (A.nrows - (i + 1))).foldl
      (fun W2 j =>
        updAdd W2 (i + d) (j + d) (alpha * mergeJoin D (rowPairs A i) (rowPairs A j)))
      (updAdd W0 (i + d) (i + d) (alpha * diagAcc D (rowPairs A i)))) W

/-- The diagnostic printed by `addMDinvNtransToSymDeMatUTri` under
`HIOP_DEEPCHECKS` when a written destination falls below the diagonal. -/
def lowerTriWarning : String :=
  "[warning] lower triangular element updated in addMDinvNtransToSymDeMatUTri"

/-- Serialized processing of the `(i, j)` destination pairs of
`addMDinvNtransToSymDeMatUTri` with `HIOP_DEEPCHECKS` semantics: each pair
gets the merge-join accumulation `WM(i+rds, j+cds) += alpha*acc`, but a pair
whose destination has `i+rds > j+cds` first prints the warning and then fails
the hard `assert(i+row_dest_start <= j+col_dest_start)` — modelled by
returning the warnings emitted so far and `none` (aborted execution). -/
def deepWriteGo (M1 M2 : SparseTriplet) (rds cds : ℕ) (alpha : ℚ) (D : ℕ → ℚ) :
    List (ℕ × ℕ) → (ℕ → ℕ → ℚ) → List String × Option (ℕ → ℕ → ℚ)
  | [], W => ([], some W)
  | (i, j) :: rest, W =>
    if j + cds < i + rds then ([lowerTriWarning], none)
    else
      deepWriteGo M1 M2 rds cds alpha D rest
        (updAdd W (i + rds) (j + cds) (alpha * mergeJoin D (rowPairs M1 i) (rowPairs M2 j)))

/-- The row-major list of all `(i, j)` pairs with `i < m1`, `j < m2`. -/
def allPairs (m1 m2 : ℕ) : List (ℕ × ℕ) :=
  (List.range m1).flatMap (fun i => (List.range m2).map (fun j => (i, j)))

/-- The method `hiopMatrixRajaSparseTriplet::addMDinvNtransToSymDeMatUTri(row_dest_start,
col_dest_start, alpha, D, M2mat, W)` with `HIOP_DEEPCHECKS` enabled, as a
whole call: warnings printed and the resulting dense matrix (`none` when the
hard assertion stopped the call). -/
def addMDinvNtransToSymDeMatUTriDeep (M1 M2 : SparseTriplet) (rds cds : ℕ) (alpha : ℚ)
    (D : ℕ → ℚ) (W : ℕ → ℕ → ℚ) : List String × Option (ℕ → ℕ → ℚ) :=
  deepWriteGo M1 M2 rds cds alpha D (allPairs M1.nrows M2.nrows) W

/-- State of a `hiopMatrixRajaSparseTriplet` as far as the memory-space /
host-mirror logic of the constructor and of `copyToDev` / `copyFromDev` is
concerned.  The three device arrays and the three host-mirror arrays are kept
separately; `hostAliasesDev` records whether the constructor made the mirror
pointers alias the device pointers instead of allocating. -/
structure RajaMatState where
  mem_space : String
  devRows : List ℕ
  devCols : List ℕ
  devVals : List ℚ
  hostRows : List ℕ
  hostCols : List ℕ
  hostVals : List ℚ
  hostAliasesDev : Bool
deriving DecidableEq, Repr

/-- The constructor `hiopMatrixRajaSparseTriplet(rows, cols, nnz, memspace)`:
without `HIOP_USE_GPU` the memory space is forced to `"HOST"`; the device
arrays are allocated in `mem_space_`; a separate host mirror is allocated only
when `mem_space_ == "DEVICE"`, otherwise the mirror aliases the device
arrays. -/
def mkRajaMatState (use_gpu : Bool) (memspace : String)
    (rows0 cols0 : List ℕ) (vals0 : List ℚ) : RajaMatState :=
  let ms := if use_gpu then memspace else "HOST"
  { mem_space := ms
    devRows := rows0
    devCols := cols0
    devVals := vals0
    hostRows := rows0
    hostCols := cols0
    hostVals := vals0
    hostAliasesDev := !(ms == "DEVICE") }

/-- The method `hiopMatrixRajaSparseTriplet::copyToDev()`: copies the three host-mirror
arrays to the device arrays, but only when `mem_space_ == "DEVICE"`. -/
def copyToDev (s : RajaMatState) : RajaMatState :=
  if s.mem_space = "DEVICE" then
    { s with devRows := s.hostRows, devCols := s.hostCols, devVals := s.hostVals }
  else s

/-- The method `hiopMatrixRajaSparseTriplet::copyFromDev()`: copies the three device
arrays to the host mirror, but only when `mem_space_ == "DEVICE"`. -/
def copyFromDev (s : RajaMatState) : RajaMatState :=
  if s.mem_space = "DEVICE" then
    { s with hostRows := s.devRows, hostCols := s.devCols, hostVals := s.devVals }
  else s

/-- Inner product of the first `n` coordinates of two embedded vectors. -/
def dotRange (n : ℕ) (u v : ℕ → ℚ) : ℚ :=
  ((List.range n).map (fun i => u i * v i)).sum

/-- The all-zero vector. -/
def zeroVec : ℕ → ℚ := fun _ => 0

/-- The all-ones vector. -/
def onesVec : ℕ → ℚ := fun _ => 1

/-- The 2×3 example matrix of the spec: triplets `(0,0,2),(0,2,3),(1,1,4)`. -/
def exRect : SparseTriplet := ⟨2, 3, [⟨0, 0, 2⟩, ⟨0, 2, 3⟩, ⟨1, 1, 4⟩]⟩

/-- The symmetric 2×2 example of the spec: upper-triangle triplets
`(0,0,1),(0,1,2),(1,1,3)`. -/
def exSym : SparseTriplet := ⟨2, 2, [⟨0, 0, 1⟩, ⟨0, 1, 2⟩, ⟨1, 1, 3⟩]⟩

/-- The 3-row row-start example of the spec: triplets at positions
`(0,0),(0,1),(1,2),(2,0)`. -/
def exRowStart : SparseTriplet := ⟨3, 3, [⟨0, 0, 1⟩, ⟨0, 1, 1⟩, ⟨1, 2, 1⟩, ⟨2, 0, 1⟩]⟩

/-- A 1×1 matrix with a single triplet `(0,0,1)`. -/
def exOne : SparseTriplet := ⟨1, 1, [⟨0, 0, 1⟩]⟩

/-- A 2×3 matrix with no stored entries. -/
def exEmpty : SparseTriplet := ⟨2, 3, []⟩

/-- The degenerate 0×0 matrix (legal per the constructor, which forces
`nnz = 0` when a dimension is 0). -/
def exZero : SparseTriplet := ⟨0, 0, []⟩

/-- A 2×2 matrix whose row 1 has no stored entry. -/
def exGap : SparseTriplet := ⟨2, 2, [⟨0, 0, 5⟩]⟩

end HiopSparse

namespace HiopSparse

/-! ## Generic helper lemmas -/

lemma sum_map_const_mul {α : Type} (l : List α) (f : α → ℚ) (c : ℚ) :
    (l.map (fun t => c * f t)).sum = c * (l.map f).sum := by
  induction l with
  | nil => simp
  | cons t l ih => simp [ih, mul_add]

lemma sum_map_zero_of {α : Type} (l : List α) (f : α → ℚ) (h : ∀ t ∈ l, f t = 0) :
    (l.map f).sum = 0 := by
  induction l with
  | nil => simp
  | cons t l ih =>
    simp only [List.map_cons, List.sum_cons]
    rw [h t (List.mem_cons_self t l), ih (fun u hu => h u (List.mem_cons_of_mem t hu)),
        add_zero]

/-! ## Pointwise characterization of the scatter-add loops -/

lemma scatterAdd_apply (alpha : ℚ) (x : ℕ → ℚ) (ts : List Triplet) (y : ℕ → ℚ) (i : ℕ) :
    scatterAdd alpha x ts y i =
      y i + (ts.map (fun t => if t.row = i then alpha * x t.col * t.val else 0)).sum := by
  induction ts generalizing y with
  | nil => simp [scatterAdd]
  | cons t ts ih =>
    have hstep : scatterAdd alpha x (t :: ts) y =
        scatterAdd alpha x ts
          (Function.update y t.row (y t.row + alpha * x t.col * t.val)) := rfl
    rw [hstep, ih]
    simp only [List.map_cons, List.sum_cons, Function.update_apply]
    by_cases h : t.row = i
    · subst h; simp; ring
    · rw [if_neg (fun hh : i = t.row => h hh.symm), if_neg h, zero_add]

lemma scatterAddT_apply (alpha : ℚ) (x : ℕ → ℚ) (ts : List Triplet) (y : ℕ → ℚ) (j : ℕ) :
    scatterAddT alpha x ts y j =
      y j + (ts.map (fun t => if t.col = j then alpha * x t.row * t.val else 0)).sum := by
  induction ts generalizing y with
  | nil => simp [scatterAddT]
  | cons t ts ih =>
    have hstep : scatterAddT alpha x (t :: ts) y =
        scatterAddT alpha x ts
          (Function.update y t.col (y t.col + alpha * x t.row * t.val)) := rfl
    rw [hstep, ih]
    simp only [List.map_cons, List.sum_cons, Function.update_apply]
    by_cases h : t.col = j
    · subst h; simp; ring
    · rw [if_neg (fun hh : j = t.col => h hh.symm), if_neg h, zero_add]

lemma sum_ite_row_eq_filter (ts : List Triplet) (i : ℕ) (f : Triplet → ℚ) :
    (ts.map (fun t => if t.row = i then f t else 0)).sum
      = ((ts.filter (fun t => t.row == i)).map f).sum := by
  induction ts with
  | nil => simp
  | cons t ts ih =>
    by_cases h : t.row = i <;> simp [List.filter_cons, h, ih]

lemma sum_ite_col_eq_filter (ts : List Triplet) (j : ℕ) (f : Triplet → ℚ) :
    (ts.map (fun t => if t.col = j then f t else 0)).sum
      = ((ts.filter (fun t => t.col == j)).map f).sum := by
  induction ts with
  | nil => simp
  | cons t ts ih =>
    by_cases h : t.col = j <;> simp [List.filter_cons, h, ih]

lemma timesVec_apply (A : SparseTriplet) (beta : ℚ) (y : ℕ → ℚ) (alpha : ℚ) (x : ℕ → ℚ)
    (i : ℕ) :
    timesVec A beta y alpha x i =
      (if i < A.nrows then beta * y i else y i) +
        alpha * ((A.triplets.filter (fun t => t.row == i)).map (fun t => x t.col * t.val)).sum := by
  rw [timesVec, scatterAdd_apply, scaleRange]
  congr 1
  rw [← sum_ite_row_eq_filter, ← sum_map_const_mul]
  refine congrArg List.sum (List.map_congr_left ?_)
  intro t _
  by_cases h : t.row = i
  · simp [h]; ring
  · simp [h]

lemma transTimesVec_apply (A : SparseTriplet) (beta : ℚ) (y : ℕ → ℚ) (alpha : ℚ)
    (x : ℕ → ℚ) (j : ℕ) :
    transTimesVec A beta y alpha x j =
      (if j < A.ncols then beta * y j else y j) +
        alpha * ((A.triplets.filter (fun t => t.col == j)).map (fun t => x t.row * t.val)).sum := by
  rw [transTimesVec, scatterAddT_apply, scaleRange]
  congr 1
  rw [← sum_ite_col_eq_filter, ← sum_map_const_mul]
  refine congrArg List.sum (List.map_congr_left ?_)
  intro t _
  by_cases h : t.col = j
  · simp [h]; ring
  · simp [h]

end HiopSparse

namespace HiopSparse

/-! ## Claims C4 and C10 -/

/-- C4: For the general sparse triplet matrix, `timesVec(beta, y, alpha, x)`
first scales every `y[i]` over `[0, rows)` by `beta` and then, for every
triplet `k`, adds `alpha·x[col[k]]·value[k]` into `y[row[k]]`; `transTimesVec`
is the same with row and col roles swapped.  In particular, for the 2×3 matrix
with triplets `(0,0,2),(0,2,3),(1,1,4)`, `beta=0`, `alpha=1`: `timesVec` with
`x=[1,1,1]` yields `y=[5,4]` and `transTimesVec` with `x=[1,1]` yields
`y=[2,4,3]`. -/
theorem c4_timesVec_transTimesVec_spec :
    (∀ (A : SparseTriplet) (beta alpha : ℚ) (y x : ℕ → ℚ) (i : ℕ), i < A.nrows →
      timesVec A beta y alpha x i =
        beta * y i +
          alpha * ((A.triplets.filter (fun t => t.row == i)).map
            (fun t => x t.col * t.val)).sum) ∧
    (∀ (A : SparseTriplet) (beta alpha : ℚ) (y x : ℕ → ℚ) (j : ℕ), j < A.ncols →
      transTimesVec A beta y alpha x j =
        beta * y j +
          alpha * ((A.triplets.filter (fun t => t.col == j)).map
            (fun t => x t.row * t.val)).sum) ∧
    (timesVec exRect 0 zeroVec 1 onesVec 0 = 5 ∧
     timesVec exRect 0 zeroVec 1 onesVec 1 = 4) ∧
    (transTimesVec exRect 0 zeroVec 1 onesVec 0 = 2 ∧
     transTimesVec exRect 0 zeroVec 1 onesVec 1 = 4 ∧
     transTimesVec exRect 0 zeroVec 1 onesVec 2 = 3) := by
  refine ⟨?_, ?_, ⟨?_, ?_⟩, ?_, ?_, ?_⟩
  · intro A beta alpha y x i hi
    rw [timesVec_apply, if_pos hi]
  · intro A beta alpha y x j hj
    rw [transTimesVec_apply, if_pos hj]
  all_goals
    norm_num [timesVec, transTimesVec, scatterAdd, scatterAddT, scaleRange, exRect,
      zeroVec, onesVec, Function.update]

/-- Witness for C4 at a concrete input. -/
theorem c4_witness :
    0 < exRect.nrows ∧ 2 < exRect.ncols ∧
    timesVec exRect 2 onesVec 3 onesVec 0 =
      2 * onesVec 0 +
        3 * ((exRect.triplets.filter (fun t => t.row == 0)).map
          (fun t => onesVec t.col * t.val)).sum ∧
    transTimesVec exRect 2 onesVec 3 onesVec 2 =
      2 * onesVec 2 +
        3 * ((exRect.triplets.filter (fun t => t.col == 2)).map
          (fun t => onesVec t.row * t.val)).sum :=
  ⟨by decide, by decide,
    c4_timesVec_transTimesVec_spec.1 exRect 2 3 onesVec onesVec 0 (by decide),
    c4_timesVec_transTimesVec_spec.2.1 exRect 2 3 onesVec onesVec 2 (by decide)⟩

/-- C10: For every sparse triplet matrix: every row index `i < rows` that
is not the row of any stored triplet satisfies `y[i] = beta·y_old[i]` after
`timesVec`; when `nnz = 0`, `timesVec` reduces to pointwise scaling on
`[0, rows)`, and no entry of `y` outside `[0, rows)` is modified. -/
theorem c10_timesVec_frame :
    ∀ (A : SparseTriplet) (beta alpha : ℚ) (y x : ℕ → ℚ),
      (∀ i, i < A.nrows → (∀ t ∈ A.triplets, t.row ≠ i) →
        timesVec A beta y alpha x i = beta * y i) ∧
      (A.nnz = 0 →
        (∀ i, i < A.nrows → timesVec A beta y alpha x i = beta * y i) ∧
        (∀ i, A.nrows ≤ i → timesVec A beta y alpha x i = y i)) := by
  intro A beta alpha y x
  constructor
  · intro i hi hrow
    rw [timesVec_apply, if_pos hi]
    have hnil : A.triplets.filter (fun t => t.row == i) = [] := by
      rw [List.filter_eq_nil_iff]
      intro t ht
      simpa using hrow t ht
    rw [hnil]
    simp
  · intro hz
    have hnil : A.triplets = [] := List.length_eq_zero.mp hz
    constructor
    · intro i hi
      rw [timesVec_apply, if_pos hi, hnil]
      simp
    · intro i hi
      rw [timesVec_apply, if_neg (Nat.not_lt.mpr hi), hnil]
      simp

/-- Witness for C10 at concrete inputs: row 1 of `exGap` stores no triplet, and
`exEmpty` has no triplets at all. -/
theorem c10_witness :
    (1 < exGap.nrows ∧ timesVec exGap 7 onesVec 3 onesVec 1 = 7 * onesVec 1) ∧
    (exEmpty.nnz = 0 ∧
      (1 < exEmpty.nrows ∧ timesVec exEmpty 7 onesVec 3 onesVec 1 = 7 * onesVec 1) ∧
      (exEmpty.nrows ≤ 5 ∧ timesVec exEmpty 7 onesVec 3 onesVec 5 = onesVec 5)) :=
  ⟨⟨by decide,
      (c10_timesVec_frame exGap 7 3 onesVec onesVec).1 1 (by decide) (by decide)⟩,
    by decide,
    ⟨by decide,
      ((c10_timesVec_frame exEmpty 7 3 onesVec onesVec).2 (by decide)).1 1 (by decide)⟩,
    ⟨by decide,
      ((c10_timesVec_frame exEmpty 7 3 onesVec onesVec).2 (by decide)).2 5 (by decide)⟩⟩

end HiopSparse

namespace HiopSparse

/-! ## Claim C8: adjointness of the two scatter-add phases -/

lemma sum_map_mul_update (l : List ℕ) (hnd : l.Nodup) (y z : ℕ → ℚ) (r : ℕ) (hr : r ∈ l)
    (q : ℚ) :
    (l.map (fun i => y i * Function.update z r (z r + q) i)).sum =
      (l.map (fun i => y i * z i)).sum + y r * q := by
  induction l with
  | nil => exact absurd hr (List.not_mem_nil r)
  | cons a l ih =>
    simp only [List.map_cons, List.sum_cons]
    by_cases h : a = r
    · subst h
      have hnotin : a ∉ l := (List.nodup_cons.mp hnd).1
      have hmap : (l.map (fun i => y i * Function.update z a (z a + q) i)).sum =
          (l.map (fun i => y i * z i)).sum := by
        refine congrArg List.sum (List.map_congr_left ?_)
        intro i hi
        rw [Function.update_apply,
          if_neg (fun hh : i = a => hnotin (hh ▸ hi))]
      rw [hmap, Function.update_apply, if_pos rfl]
      ring
    · have hr' : r ∈ l := by
        rcases List.mem_cons.mp hr with hh | hh
        · exact absurd hh.symm h
        · exact hh
      rw [ih (List.nodup_cons.mp hnd).2 hr', Function.update_apply,
        if_neg h]
      ring

lemma dotRange_update (n : ℕ) (y z : ℕ → ℚ) (r : ℕ) (hr : r < n) (q : ℚ) :
    dotRange n y (Function.update z r (z r + q)) = dotRange n y z + y r * q := by
  rw [dotRange, dotRange]
  exact sum_map_mul_update (List.range n) (List.nodup_range n) y z r
    (List.mem_range.mpr hr) q

lemma dotRange_scatterAdd (n : ℕ) (y : ℕ → ℚ) (alpha : ℚ) (x : ℕ → ℚ) (ts : List Triplet)
    (z : ℕ → ℚ) (hrows : ∀ t ∈ ts, t.row < n) :
    dotRange n y (scatterAdd alpha x ts z) =
      dotRange n y z + (ts.map (fun t => y t.row * (alpha * x t.col * t.val))).sum := by
  induction ts generalizing z with
  | nil => simp [scatterAdd, dotRange]
  | cons t ts ih =>
    have hstep : scatterAdd alpha x (t :: ts) z =
        scatterAdd alpha x ts
          (Function.update z t.row (z t.row + alpha * x t.col * t.val)) := rfl
    rw [hstep, ih _ (fun u hu => hrows u (List.mem_cons_of_mem t hu)),
      dotRange_update n y z t.row (hrows t (List.mem_cons_self t ts))]
    simp only [List.map_cons, List.sum_cons]
    ring

lemma dotRange_scatterAddT (n : ℕ) (y : ℕ → ℚ) (alpha : ℚ) (x : ℕ → ℚ) (ts : List Triplet)
    (z : ℕ → ℚ) (hcols : ∀ t ∈ ts, t.col < n) :
    dotRange n y (scatterAddT alpha x ts z) =
      dotRange n y z + (ts.map (fun t => y t.col * (alpha * x t.row * t.val))).sum := by
  induction ts generalizing z with
  | nil => simp [scatterAddT, dotRange]
  | cons t ts ih =>
    have hstep : scatterAddT alpha x (t :: ts) z =
        scatterAddT alpha x ts
          (Function.update z t.col (z t.col + alpha * x t.row * t.val)) := rfl
    rw [hstep, ih _ (fun u hu => hcols u (List.mem_cons_of_mem t hu)),
      dotRange_update n y z t.col (hcols t (List.mem_cons_self t ts))]
    simp only [List.map_cons, List.sum_cons]
    ring

lemma dotRange_scaleZero (n : ℕ) (y z : ℕ → ℚ) :
    dotRange n y (scaleRange 0 n z) = 0 := by
  rw [dotRange]
  apply sum_map_zero_of
  intro i hi
  rw [scaleRange]
  rw [if_pos (List.mem_range.mp hi), zero_mul, mul_zero]

/-- C8: For every sparse triplet matrix whose stored indices are in
bounds, the scatter-add phases of `timesVec` and `transTimesVec` are adjoint:
`⟨y, A·x⟩ = ⟨x, Aᵀ·y⟩` where `A·x` is the `beta=0, alpha=1` result of
`timesVec` and `Aᵀ·y` the `beta=0, alpha=1` result of `transTimesVec`,
exactly over the embedded (rational) arithmetic. -/
theorem c8_timesVec_adjoint :
    ∀ (A : SparseTriplet) (x y y0 x0 : ℕ → ℚ),
      (∀ t ∈ A.triplets, t.row < A.nrows ∧ t.col < A.ncols) →
      dotRange A.nrows y (timesVec A 0 y0 1 x) =
        dotRange A.ncols x (transTimesVec A 0 x0 1 y) := by
  intro A x y y0 x0 hb
  rw [timesVec, transTimesVec,
    dotRange_scatterAdd A.nrows y 1 x A.triplets _ (fun t ht => (hb t ht).1),
    dotRange_scatterAddT A.ncols x 1 y A.triplets _ (fun t ht => (hb t ht).2),
    dotRange_scaleZero, dotRange_scaleZero, zero_add, zero_add]
  refine congrArg List.sum (List.map_congr_left ?_)
  intro t _
  ring

/-- Witness for C8 at a concrete input. -/
theorem c8_witness :
    (∀ t ∈ exRect.triplets, t.row < exRect.nrows ∧ t.col < exRect.ncols) ∧
    dotRange exRect.nrows onesVec (timesVec exRect 0 zeroVec 1 onesVec) =
      dotRange exRect.ncols onesVec (transTimesVec exRect 0 zeroVec 1 onesVec) :=
  ⟨by decide, c8_timesVec_adjoint exRect onesVec onesVec zeroVec zeroVec (by decide)⟩

/-! ## Claim C9: setToConstant and max_abs_value -/

lemma max_abs_foldl_ge (ts : List Triplet) (m : ℚ) :
    m ≤ ts.foldl (fun a t => max a |t.val|) m := by
  induction ts generalizing m with
  | nil => exact le_refl m
  | cons t ts ih =>
    exact le_trans (le_max_left m |t.val|) (ih (max m |t.val|))

lemma max_abs_foldl_bound (ts : List Triplet) (m : ℚ) :
    ∀ t ∈ ts, |t.val| ≤ ts.foldl (fun a t => max a |t.val|) m := by
  induction ts generalizing m with
  | nil => intro t ht; exact absurd ht (List.not_mem_nil t)
  | cons u ts ih =>
    intro t ht
    rcases List.mem_cons.mp ht with h | h
    · subst h
      exact le_trans (le_max_right m |t.val|) (max_abs_foldl_ge ts (max m |t.val|))
    · exact ih (max m |u.val|) t h

lemma max_abs_foldl_cases (ts : List Triplet) (m : ℚ) :
    ts.foldl (fun a t => max a |t.val|) m = m ∨
      ∃ t ∈ ts, ts.foldl (fun a t => max a |t.val|) m = |t.val| := by
  induction ts generalizing m with
  | nil => exact Or.inl rfl
  | cons u ts ih =>
    rcases ih (max m |u.val|) with h | ⟨t, ht, h⟩
    · rcases max_choice m |u.val| with hm | hm
      · exact Or.inl (by rw [List.foldl_cons, h, hm])
      · exact Or.inr ⟨u, List.mem_cons_self u ts, by rw [List.foldl_cons, h, hm]⟩
    · exact Or.inr ⟨t, List.mem_cons_of_mem u ht, by rw [List.foldl_cons, h]⟩

/-- C9: `setToConstant(c)` followed by `max_abs_value()` returns `|c|`
when `nnz > 0` and `0` when `nnz = 0`; in general `max_abs_value()` is the
maximum of `|value[k]|` over all stored entries, and `0` for an empty
matrix. -/
theorem c9_setToConstant_max_abs :
    ∀ (A : SparseTriplet) (c : ℚ),
      (0 < A.nnz → max_abs_value (setToConstant A c) = |c|) ∧
      (A.nnz = 0 → max_abs_value (setToConstant A c) = 0) ∧
      (A.nnz = 0 → max_abs_value A = 0) ∧
      (∀ t ∈ A.triplets, |t.val| ≤ max_abs_value A) ∧
      (0 < A.nnz → ∃ t ∈ A.triplets, max_abs_value A = |t.val|) := by
  intro A c
  have habs : ∀ B : SparseTriplet, 0 < B.nnz →
      ∃ t ∈ B.triplets, max_abs_value B = |t.val| := by
    intro B hpos
    rcases max_abs_foldl_cases B.triplets 0 with h | ⟨t, ht, h⟩
    · obtain ⟨t, ht⟩ := List.exists_mem_of_length_pos hpos
      refine ⟨t, ht, le_antisymm ?_ ?_⟩
      · rw [max_abs_value, h]; exact abs_nonneg t.val
      · exact max_abs_foldl_bound B.triplets 0 t ht
    · exact ⟨t, ht, h⟩
  refine ⟨?_, ?_, ?_, ?_, habs A⟩
  · intro hpos
    have hpos' : 0 < (setToConstant A c).nnz := by
      simpa [setToConstant, SparseTriplet.nnz] using hpos
    obtain ⟨t, ht, h⟩ := habs (setToConstant A c) hpos'
    obtain ⟨u, _, hu⟩ := List.mem_map.mp ht
    rw [h, ← hu]
  · intro hz
    have : (setToConstant A c).triplets = [] := by
      have := List.length_eq_zero.mp hz
      simp [setToConstant, this]
    rw [max_abs_value, this]
    rfl
  · intro hz
    rw [max_abs_value, List.length_eq_zero.mp hz]
    rfl
  · exact max_abs_foldl_bound A.triplets 0

/-- Witness for C9 at a concrete input. -/
theorem c9_witness :
    0 < exRect.nnz ∧
    max_abs_value (setToConstant exRect (-7)) = |(-7 : ℚ)| ∧
    exEmpty.nnz = 0 ∧ max_abs_value exEmpty = 0 :=
  ⟨by decide,
    (c9_setToConstant_max_abs exRect (-7)).1 (by decide),
    by decide,
    (c9_setToConstant_max_abs exEmpty 0).2.2.1 (by decide)⟩

end HiopSparse

namespace HiopSparse

/-! ## Claim C1: the symmetric timesVec -/

/-- C1 (failing-input evaluation): On the spec's own example — symmetric
2×2 matrix with upper-triangle triplets `(0,0,1),(0,1,2),(1,1,3)`, `x=[1,1]`,
`beta=0`, `alpha=1` — the code produces `y=[5,3]`, not the full symmetric
product `y=[3,5]` claimed by the spec: the mirrored contribution
`alpha·x[iRow]·v` of each off-diagonal triplet is accumulated into
`y[iRow]` (through the single `AtomicRef yy`) instead of `y[jCol]`. -/
theorem c1_symTimesVec_failing_input :
    symTimesVec exSym 0 zeroVec 1 onesVec 0 = 5 ∧
    symTimesVec exSym 0 zeroVec 1 onesVec 1 = 3 ∧
    ¬(symTimesVec exSym 0 zeroVec 1 onesVec 0 = 3 ∧
      symTimesVec exSym 0 zeroVec 1 onesVec 1 = 5) := by
  refine ⟨?_, ?_, ?_⟩
  · norm_num [symTimesVec, symScatterAdd, scaleRange, exSym, zeroVec, onesVec,
      Function.update]
  · norm_num [symTimesVec, symScatterAdd, scaleRange, exSym, zeroVec, onesVec,
      Function.update]
  · intro ⟨h0, _⟩
    have h5 : symTimesVec exSym 0 zeroVec 1 onesVec 0 = 5 := by
      norm_num [symTimesVec, symScatterAdd, scaleRange, exSym, zeroVec, onesVec,
        Function.update]
    rw [h5] at h0
    norm_num at h0

/-! ## Claim C2: the symmetric transAddToSymDenseMatrixUpperTriangle -/

lemma foldlUpdAdd_apply {α : Type} (ts : List α) (key : α → ℕ × ℕ) (q : α → ℚ)
    (W : ℕ → ℕ → ℚ) (a b : ℕ) :
    (ts.foldl (fun W t => updAdd W (key t).1 (key t).2 (q t)) W) a b =
      W a b + (ts.map (fun t => if (key t).1 = a ∧ (key t).2 = b then q t else 0)).sum := by
  induction ts generalizing W with
  | nil => simp
  | cons t ts ih =>
    rw [List.foldl_cons, ih]
    simp only [List.map_cons, List.sum_cons, updAdd]
    by_cases h : a = (key t).1 ∧ b = (key t).2
    · rw [if_pos h, if_pos ⟨h.1.symm, h.2.symm⟩]
      ring
    · rw [if_neg h, if_neg (fun hh => h ⟨hh.1.symm, hh.2.symm⟩), zero_add]

lemma sum_ite_key_eq_filter (ts : List Triplet) (key : Triplet → ℕ × ℕ)
    (q : Triplet → ℚ) (a b : ℕ) :
    (ts.map (fun t => if (key t).1 = a ∧ (key t).2 = b then q t else 0)).sum
      = ((ts.filter (fun t => (key t).1 == a && (key t).2 == b)).map q).sum := by
  induction ts with
  | nil => simp
  | cons t ts ih =>
    by_cases h1 : (key t).1 = a <;> by_cases h2 : (key t).2 = b <;>
      simp [List.filter_cons, h1, h2, ih]

/-- C2 (counterexample): The symmetric-matrix
`transAddToSymDenseMatrixUpperTriangle` does NOT behave as the general
sparse-triplet case when `row_start ≠ col_start`: with the single triplet
`(0,0,1)`, `row_start=0`, `col_start=1`, `alpha=1` and `W=0`, the general
placement writes `alpha·v` at dense entry `(0,1)` while the symmetric variant
leaves `(0,1)` at `0` and instead writes at `(1,0)`. -/
theorem c2_symTransAdd_counterexample :
    symTransAddToSymDenseUT exOne 0 1 1 (fun _ _ => 0) 0 1 ≠
      transAddToSymDenseUT exOne 0 1 1 (fun _ _ => 0) 0 1 ∧
    symTransAddToSymDenseUT exOne 0 1 1 (fun _ _ => 0) 0 1 = 0 ∧
    symTransAddToSymDenseUT exOne 0 1 1 (fun _ _ => 0) 1 0 = 1 ∧
    transAddToSymDenseUT exOne 0 1 1 (fun _ _ => 0) 0 1 = 1 := by
  refine ⟨?_, ?_, ?_, ?_⟩ <;>
    norm_num [symTransAddToSymDenseUT, transAddToSymDenseUT, exOne, updAdd]

/-- C2 (amended): For the symmetric sparse triplet matrix,
`transAddToSymDenseMatrixUpperTriangle(row_start, col_start, alpha, W)` adds,
for every stored triplet `(r,c,v)`, the quantity `alpha·v` to the dense entry
whose row index is `c + col_start` and whose column index is `r + row_start`;
it therefore coincides with the general sparse-triplet placement (row
`c + row_start`, column `r + col_start`) whenever `row_start = col_start`. -/
theorem c2_symTransAdd_amended (A : SparseTriplet) (rs cs : ℕ) (alpha : ℚ)
    (W : ℕ → ℕ → ℚ) :
    (∀ a b, symTransAddToSymDenseUT A rs cs alpha W a b =
      W a b +
        ((A.triplets.filter (fun t => t.col + cs == a && t.row + rs == b)).map
          (fun t => alpha * t.val)).sum) ∧
    (rs = cs →
      symTransAddToSymDenseUT A rs cs alpha W = transAddToSymDenseUT A rs cs alpha W) := by
  constructor
  · intro a b
    rw [symTransAddToSymDenseUT,
      foldlUpdAdd_apply A.triplets (fun t => (t.col + cs, t.row + rs))
        (fun t => alpha * t.val) W a b,
      sum_ite_key_eq_filter A.triplets (fun t => (t.col + cs, t.row + rs))
        (fun t => alpha * t.val) a b]
  · intro h
    subst h
    rfl

/-- Witness for C2 (amended) at a concrete input. -/
theorem c2_witness :
    symTransAddToSymDenseUT exSym 2 2 1 (fun _ _ => 0) =
      transAddToSymDenseUT exSym 2 2 1 (fun _ _ => 0) ∧
    symTransAddToSymDenseUT exSym 2 3 1 (fun _ _ => 0) 3 2 =
      (fun _ _ => (0 : ℚ)) 3 2 +
        ((exSym.triplets.filter (fun t => t.col + 3 == 3 && t.row + 2 == 2)).map
          (fun t => 1 * t.val)).sum :=
  ⟨(c2_symTransAdd_amended exSym 2 2 1 (fun _ _ => 0)).2 rfl,
    (c2_symTransAdd_amended exSym 2 3 1 (fun _ _ => 0)).1 3 2⟩

end HiopSparse

namespace HiopSparse

/-! ## The row-start index (claims C7, C5, C3) -/

lemma advanceCursor_step (rows : List ℕ) (r it : ℕ)
    (h : it < rows.length ∧ rows.getD it 0 = r) :
    advanceCursor rows r it = advanceCursor rows r (it + 1) := by
  rw [advanceCursor]
  exact dif_pos h

lemma advanceCursor_halt (rows : List ℕ) (r it : ℕ)
    (h : ¬(it < rows.length ∧ rows.getD it 0 = r)) :
    advanceCursor rows r it = it := by
  rw [advanceCursor]
  exact dif_neg h

lemma advanceCursor_ge (rows : List ℕ) (r it : ℕ) : it ≤ advanceCursor rows r it := by
  induction it using advanceCursor.induct rows r with
  | case1 it h ih =>
    rw [advanceCursor_step rows r it h]
    exact le_trans (Nat.le_succ it) ih
  | case2 it h =>
    rw [advanceCursor_halt rows r it h]

lemma advanceCursor_le_len (rows : List ℕ) (r it : ℕ) (h : it ≤ rows.length) :
    advanceCursor rows r it ≤ rows.length := by
  induction it using advanceCursor.induct rows r with
  | case1 it hc ih =>
    rw [advanceCursor_step rows r it hc]
    exact ih hc.1
  | case2 it hc =>
    rw [advanceCursor_halt rows r it hc]
    exact h

lemma advanceCursor_between (rows : List ℕ) (r it : ℕ) :
    ∀ k, it ≤ k → k < advanceCursor rows r it → rows.getD k 0 = r := by
  induction it using advanceCursor.induct rows r with
  | case1 it hc ih =>
    intro k hk1 hk2
    by_cases hk : k = it
    · exact hk ▸ hc.2
    · exact ih k (Nat.lt_of_le_of_ne hk1 (fun hh => hk hh.symm))
        (by rwa [advanceCursor_step rows r it hc] at hk2)
  | case2 it hc =>
    intro k hk1 hk2
    rw [advanceCursor_halt rows r it hc] at hk2
    exact absurd (Nat.lt_of_le_of_lt hk1 hk2) (Nat.lt_irrefl it)

lemma advanceCursor_stop (rows : List ℕ) (r it : ℕ) :
    ¬(advanceCursor rows r it < rows.length ∧
      rows.getD (advanceCursor rows r it) 0 = r) := by
  induction it using advanceCursor.induct rows r with
  | case1 it hc ih =>
    rw [advanceCursor_step rows r it hc]
    exact ih
  | case2 it hc =>
    rw [advanceCursor_halt rows r it hc]
    exact hc

lemma rowStartOff_mono_succ (rows : List ℕ) (i : ℕ) :
    rowStartOff rows i ≤ rowStartOff rows (i + 1) :=
  advanceCursor_ge rows i (rowStartOff rows i)

lemma rowStartOff_mono (rows : List ℕ) {i j : ℕ} (h : i ≤ j) :
    rowStartOff rows i ≤ rowStartOff rows j := by
  induction j with
  | zero => exact Nat.le_zero.mp h ▸ le_refl _
  | succ j ih =>
    rcases Nat.lt_succ_iff_lt_or_eq.mp (Nat.lt_succ_of_le h) with h1 | h1
    · exact le_trans (ih (Nat.le_of_lt_succ h1)) (rowStartOff_mono_succ rows j)
    · exact h1 ▸ le_refl _

lemma rowStartOff_le_len (rows : List ℕ) (i : ℕ) :
    rowStartOff rows i ≤ rows.length := by
  induction i with
  | zero => exact Nat.zero_le _
  | succ i ih => exact advanceCursor_le_len rows i (rowStartOff rows i) ih

lemma rowStartOff_between (rows : List ℕ) (i k : ℕ) (h1 : rowStartOff rows i ≤ k)
    (h2 : k < rowStartOff rows (i + 1)) : rows.getD k 0 = i :=
  advanceCursor_between rows i (rowStartOff rows i) k h1 h2

lemma rowStartOff_lower (rows : List ℕ) :
    ∀ i k, k < rowStartOff rows i → rows.getD k 0 < i := by
  intro i
  induction i with
  | zero => intro k hk; exact absurd hk (Nat.not_lt_zero k)
  | succ i ih =>
    intro k hk
    by_cases h : k < rowStartOff rows i
    · exact Nat.lt_succ_of_lt (ih k h)
    · rw [rowStartOff_between rows i k (Nat.le_of_not_lt h) hk]
      exact Nat.lt_succ_self i

lemma getD_mono_of_sorted (rows : List ℕ) (hs : rows.Pairwise (· ≤ ·))
    {k1 k2 : ℕ} (hk : k1 ≤ k2) (h2 : k2 < rows.length) :
    rows.getD k1 0 ≤ rows.getD k2 0 := by
  have h1 : k1 < rows.length := Nat.lt_of_le_of_lt hk h2
  rw [List.getD_eq_getElem rows 0 h1, List.getD_eq_getElem rows 0 h2]
  rcases Nat.lt_or_ge k1 k2 with h | h
  · exact List.pairwise_iff_getElem.mp hs k1 k2 h1 h2 h
  · have : k1 = k2 := Nat.le_antisymm hk h
    subst this
    exact le_refl _

lemma rowStartOff_upper (rows : List ℕ) (hs : rows.Pairwise (· ≤ ·)) :
    ∀ i k, rowStartOff rows i ≤ k → k < rows.length → i ≤ rows.getD k 0 := by
  intro i
  induction i with
  | zero => intro k _ _; exact Nat.zero_le _
  | succ i ih =>
    intro k hk1 hk2
    have hjlen : rowStartOff rows (i + 1) < rows.length := Nat.lt_of_le_of_lt hk1 hk2
    have hne : rows.getD (rowStartOff rows (i + 1)) 0 ≠ i := by
      intro hh
      exact advanceCursor_stop rows i (rowStartOff rows i) ⟨hjlen, hh⟩
    have hge : i ≤ rows.getD (rowStartOff rows (i + 1)) 0 :=
      ih (rowStartOff rows (i + 1)) (rowStartOff_mono_succ rows i) hjlen
    have hgt : i + 1 ≤ rows.getD (rowStartOff rows (i + 1)) 0 :=
      Nat.lt_of_le_of_ne hge (fun hh => hne hh.symm)
    exact le_trans hgt (getD_mono_of_sorted rows hs hk1 hk2)

lemma rowStartOff_final (rows : List ℕ) (hs : rows.Pairwise (· ≤ ·)) (n : ℕ)
    (hb : ∀ r ∈ rows, r < n) : rowStartOff rows n = rows.length := by
  refine Nat.le_antisymm (rowStartOff_le_len rows n) ?_
  by_contra h
  have hlt : rowStartOff rows n < rows.length := Nat.lt_of_not_le h
  have h1 : n ≤ rows.getD (rowStartOff rows n) 0 :=
    rowStartOff_upper rows hs n (rowStartOff rows n) (le_refl _) hlt
  have h2 : rows.getD (rowStartOff rows n) 0 < n := by
    rw [List.getD_eq_getElem rows 0 hlt]
    exact hb _ (List.getElem_mem hlt)
  exact absurd (Nat.lt_of_le_of_lt h1 h2) (Nat.lt_irrefl n)

lemma rowStartOff_row_iff (rows : List ℕ) (hs : rows.Pairwise (· ≤ ·)) (i k : ℕ)
    (hk : k < rows.length) :
    rows.getD k 0 = i ↔ rowStartOff rows i ≤ k ∧ k < rowStartOff rows (i + 1) := by
  constructor
  · intro h
    constructor
    · by_contra hlt
      have := rowStartOff_lower rows i k (Nat.lt_of_not_le hlt)
      rw [h] at this
      exact Nat.lt_irrefl i this
    · by_contra hge
      have := rowStartOff_upper rows hs (i + 1) k (Nat.le_of_not_lt hge) hk
      rw [h] at this
      exact absurd this (Nat.not_succ_le_self i)
  · intro ⟨h1, h2⟩
    exact rowStartOff_between rows i k h1 h2

lemma getD_map_range (f : ℕ → ℕ) (n i : ℕ) (h : i < n) (d : ℕ) :
    ((List.range n).map f).getD i d = f i := by
  rw [List.getD_eq_getElem _ d (by simpa using h)]
  simp

end HiopSparse

namespace HiopSparse

lemma rowsList_length (A : SparseTriplet) : A.rowsList.length = A.nnz := by
  rw [SparseTriplet.rowsList, List.length_map, SparseTriplet.nnz]

lemma rowsList_getD (A : SparseTriplet) (k : ℕ) (hk : k < A.nnz) :
    A.rowsList.getD k 0 = (A.triplets.getD k default).row := by
  rw [SparseTriplet.rowsList,
    List.getD_eq_getElem _ _ (by simpa [List.length_map, SparseTriplet.nnz] using hk),
    List.getD_eq_getElem _ _ (by simpa [SparseTriplet.nnz] using hk), List.getElem_map]

lemma rowsList_bounded (A : SparseTriplet) (hb : ∀ t ∈ A.triplets, t.row < A.nrows) :
    ∀ r ∈ A.rowsList, r < A.nrows := by
  intro r hr
  obtain ⟨t, ht, rfl⟩ := List.mem_map.mp hr
  exact hb t ht

lemma exRowStart_offsets (fresh : ℕ) :
    allocAndBuildRowStarts exRowStart fresh = [0, 2, 3, 4] := by
  have hl : exRowStart.rowsList = [0, 0, 1, 2] := rfl
  have a1 : advanceCursor [0, 0, 1, 2] 0 0 = 2 := by
    rw [advanceCursor_step [0, 0, 1, 2] 0 0 (by decide),
      advanceCursor_step [0, 0, 1, 2] 0 1 (by decide),
      advanceCursor_halt [0, 0, 1, 2] 0 2 (by decide)]
  have a2 : advanceCursor [0, 0, 1, 2] 1 2 = 3 := by
    rw [advanceCursor_step [0, 0, 1, 2] 1 2 (by decide),
      advanceCursor_halt [0, 0, 1, 2] 1 3 (by decide)]
  have a3 : advanceCursor [0, 0, 1, 2] 2 3 = 4 := by
    rw [advanceCursor_step [0, 0, 1, 2] 2 3 (by decide),
      advanceCursor_halt [0, 0, 1, 2] 2 4 (by decide)]
  have r1 : rowStartOff [0, 0, 1, 2] 1 = 2 := a1
  have r2 : rowStartOff [0, 0, 1, 2] 2 = 3 := by
    show advanceCursor [0, 0, 1, 2] 1 (rowStartOff [0, 0, 1, 2] 1) = 3
    rw [r1]
    exact a2
  have r3 : rowStartOff [0, 0, 1, 2] 3 = 4 := by
    show advanceCursor [0, 0, 1, 2] 2 (rowStartOff [0, 0, 1, 2] 2) = 4
    rw [r2]
    exact a3
  rw [allocAndBuildRowStarts, if_neg (by decide : ¬exRowStart.nrows = 0), hl]
  show [rowStartOff [0, 0, 1, 2] 0, rowStartOff [0, 0, 1, 2] 1,
    rowStartOff [0, 0, 1, 2] 2, rowStartOff [0, 0, 1, 2] 3] = [0, 2, 3, 4]
  rw [r1, r2, r3]
  rfl

/-- C7 (counterexample): For the legal degenerate matrix with `nrows = 0`
(vacuously row-major sorted, `nnz = 0`), `allocAndBuildRowStarts` takes the
`nrows <= 0` early-return path and hands back its never-written allocation, so
nothing forces `offset[0] = 0 = nnz`: with indeterminate buffer content `1`
the built index is `[1]`. -/
theorem c7_rowStarts_counterexample :
    exZero.rowsList.Pairwise (· ≤ ·) ∧ (∀ t ∈ exZero.triplets, t.row < exZero.nrows) ∧
    exZero.nnz = 0 ∧ allocAndBuildRowStarts exZero 1 = [1] ∧
    (allocAndBuildRowStarts exZero 1).getD 0 0 ≠ 0 := by
  refine ⟨?_, ?_, rfl, rfl, by decide⟩
  · simp [exZero, SparseTriplet.rowsList]
  · intro t ht
    exact absurd ht (List.not_mem_nil t)

/-- C7 (amended): For every row-major-sorted triplet matrix with
`nrows ≥ 1` rows (for `nrows = 0` the early-return path hands back an
uninitialized buffer), the built row-start index satisfies `offset[0] = 0`,
the offsets are non-decreasing, `offset[nrows] = nnz`, and the entries of row
`i` occupy exactly the triplet index range `[offset[i], offset[i+1])`; on the
3-row example with triplets at `(0,0),(0,1),(1,2),(2,0)` the offsets are
`[0,2,3,4]`. -/
theorem c7_rowStarts_amended :
    (∀ (A : SparseTriplet) (fresh : ℕ), 0 < A.nrows →
      A.rowsList.Pairwise (· ≤ ·) →
      (∀ t ∈ A.triplets, t.row < A.nrows) →
      (allocAndBuildRowStarts A fresh).getD 0 0 = 0 ∧
      (∀ i j, i ≤ j → j ≤ A.nrows →
        (allocAndBuildRowStarts A fresh).getD i 0 ≤
          (allocAndBuildRowStarts A fresh).getD j 0) ∧
      (allocAndBuildRowStarts A fresh).getD A.nrows 0 = A.nnz ∧
      (∀ i k, i < A.nrows → k < A.nnz →
        ((A.triplets.getD k default).row = i ↔
          (allocAndBuildRowStarts A fresh).getD i 0 ≤ k ∧
            k < (allocAndBuildRowStarts A fresh).getD (i + 1) 0))) ∧
    (∀ fresh, allocAndBuildRowStarts exRowStart fresh = [0, 2, 3, 4]) := by
  constructor
  · intro A fresh hpos hs hb
    have hne : ¬A.nrows = 0 := Nat.pos_iff_ne_zero.mp hpos
    have hL : allocAndBuildRowStarts A fresh =
        (List.range (A.nrows + 1)).map (rowStartOff A.rowsList) := by
      rw [allocAndBuildRowStarts, if_neg hne]
    have hgetD : ∀ i, i ≤ A.nrows →
        (allocAndBuildRowStarts A fresh).getD i 0 = rowStartOff A.rowsList i := by
      intro i hi
      rw [hL, getD_map_range _ _ _ (Nat.lt_succ_of_le hi)]
    refine ⟨?_, ?_, ?_, ?_⟩
    · rw [hgetD 0 (Nat.zero_le _)]
      rfl
    · intro i j hij hj
      rw [hgetD i (le_trans hij hj), hgetD j hj]
      exact rowStartOff_mono A.rowsList hij
    · rw [hgetD A.nrows (le_refl _), ← rowsList_length A]
      exact rowStartOff_final A.rowsList hs A.nrows (rowsList_bounded A hb)
    · intro i k hi hk
      rw [hgetD i (le_of_lt hi), hgetD (i + 1) hi, ← rowsList_getD A k hk]
      exact rowStartOff_row_iff A.rowsList hs i k
        (by rwa [rowsList_length A])
  · exact exRowStart_offsets

/-- Witness for C7 (amended) at a concrete input. -/
theorem c7_witness :
    (0 < exRowStart.nrows ∧ exRowStart.rowsList.Pairwise (· ≤ ·) ∧
      (∀ t ∈ exRowStart.triplets, t.row < exRowStart.nrows)) ∧
    (allocAndBuildRowStarts exRowStart 0).getD exRowStart.nrows 0 = exRowStart.nnz :=
  ⟨⟨by decide, by decide, by decide⟩,
    ((c7_rowStarts_amended.1 exRowStart 0 (by decide) (by decide) (by decide)).2.2).1⟩

end HiopSparse

namespace HiopSparse

/-! ## Merge-join correctness (claim C5) -/

lemma mj_nil_left (D : ℕ → ℚ) (l2 : List (ℕ × ℚ)) : mergeJoin D [] l2 = 0 := by
  rw [mergeJoin]
  intro c1 v1 t1 c2 v2 t2 h
  cases h

lemma mj_nil_right (D : ℕ → ℚ) (l1 : List (ℕ × ℚ)) : mergeJoin D l1 [] = 0 := by
  cases l1 with
  | nil =>
    rw [mergeJoin]
    intro c1 v1 t1 c2 v2 t2 h
    cases h
  | cons p t =>
    rw [mergeJoin]
    intro c1 v1 t1 c2 v2 t2 _ h
    cases h

lemma mj_cons (D : ℕ → ℚ) (c1 c2 : ℕ) (v1 v2 : ℚ) (t1 t2 : List (ℕ × ℚ)) :
    mergeJoin D ((c1, v1) :: t1) ((c2, v2) :: t2) =
      if c1 = c2 then v1 / D c1 * v2 + mergeJoin D t1 t2
      else if c1 < c2 then mergeJoin D t1 ((c2, v2) :: t2)
      else mergeJoin D ((c1, v1) :: t1) t2 := by
  rw [mergeJoin]

lemma lookupV_nil (c : ℕ) : lookupV [] c = 0 := rfl

lemma lookupV_cons (c1 : ℕ) (v1 : ℚ) (t : List (ℕ × ℚ)) (c : ℕ) :
    lookupV ((c1, v1) :: t) c = (if c1 = c then v1 else 0) + lookupV t c := by
  by_cases h : c1 = c <;> simp [lookupV, List.filter_cons, h]

lemma lookupV_eq_zero (l : List (ℕ × ℚ)) (c : ℕ) (h : ∀ p ∈ l, p.1 ≠ c) :
    lookupV l c = 0 := by
  rw [lookupV, List.filter_eq_nil_iff.mpr (fun p hp => by simpa using h p hp)]
  rfl

lemma lookupV_self (l : List (ℕ × ℚ)) (hnd : (l.map Prod.fst).Nodup) :
    ∀ p ∈ l, lookupV l p.1 = p.2 := by
  induction l with
  | nil => intro p hp; exact absurd hp (List.not_mem_nil p)
  | cons q t ih =>
    obtain ⟨q1, q2⟩ := q
    rw [List.map_cons] at hnd
    have hq : q1 ∉ t.map Prod.fst := (List.nodup_cons.mp hnd).1
    intro p hp
    rcases List.mem_cons.mp hp with h | h
    · subst h
      rw [lookupV_cons, if_pos rfl,
        lookupV_eq_zero t q1 (fun r hr hh => hq (hh ▸ List.mem_map_of_mem Prod.fst hr)),
        add_zero]
    · have hne : q1 ≠ p.1 := fun hh => hq (hh ▸ List.mem_map_of_mem Prod.fst h)
      rw [lookupV_cons q1 q2 t p.1, if_neg hne, zero_add]
      exact ih (List.nodup_cons.mp hnd).2 p h

lemma mergeJoin_eq_sum (D : ℕ → ℚ) : ∀ (l1 l2 : List (ℕ × ℚ)),
    (l1.map Prod.fst).Pairwise (· < ·) → (l2.map Prod.fst).Pairwise (· < ·) →
    mergeJoin D l1 l2 =
      ((l1.map Prod.fst).map (fun c => lookupV l1 c / D c * lookupV l2 c)).sum := by
  intro l1 l2
  induction l1, l2 using mergeJoin.induct D with
  | case1 v1 t1 c v2 t2 ih =>
    intro h1 h2
    rw [List.map_cons] at h1 h2
    have h1' := List.pairwise_cons.mp h1
    have h2' := List.pairwise_cons.mp h2
    have hl1 : lookupV ((c, v1) :: t1) c = v1 := by
      rw [lookupV_cons, if_pos rfl,
        lookupV_eq_zero t1 c
          (fun p hp hh =>
            Nat.lt_irrefl c (hh ▸ h1'.1 p.1 (List.mem_map_of_mem Prod.fst hp))),
        add_zero]
    have hl2 : lookupV ((c, v2) :: t2) c = v2 := by
      rw [lookupV_cons, if_pos rfl,
        lookupV_eq_zero t2 c
          (fun p hp hh =>
            Nat.lt_irrefl c (hh ▸ h2'.1 p.1 (List.mem_map_of_mem Prod.fst hp))),
        add_zero]
    rw [mj_cons, if_pos rfl, ih h1'.2 h2'.2]
    simp only [List.map_cons, List.sum_cons, hl1, hl2]
    congr 1
    refine congrArg List.sum (List.map_congr_left ?_)
    intro cc hcc
    have hlt : c < cc := h1'.1 cc hcc
    have hne : ¬c = cc := Nat.ne_of_lt hlt
    rw [lookupV_cons c v1 t1 cc, if_neg hne, zero_add,
      lookupV_cons c v2 t2 cc, if_neg hne, zero_add]
  | case2 c1 v1 t1 c2 v2 t2 hne hlt ih =>
    intro h1 h2
    rw [List.map_cons] at h1 h2
    have h1' := List.pairwise_cons.mp h1
    have h2' := List.pairwise_cons.mp h2
    have hl2z : lookupV ((c2, v2) :: t2) c1 = 0 := by
      refine lookupV_eq_zero _ c1 ?_
      intro p hp
      rcases List.mem_cons.mp hp with h | h
      · subst h
        exact fun hh => hne hh.symm
      · exact fun hh =>
          Nat.lt_irrefl c1
            (Nat.lt_trans hlt (hh ▸ h2'.1 p.1 (List.mem_map_of_mem Prod.fst h)))
    rw [mj_cons, if_neg hne, if_pos hlt, ih h1'.2 (by rw [List.map_cons]; exact h2)]
    simp only [List.map_cons, List.sum_cons, hl2z, mul_zero]
    rw [zero_add]
    refine congrArg List.sum (List.map_congr_left ?_)
    intro cc hcc
    have hltc : c1 < cc := h1'.1 cc hcc
    rw [lookupV_cons c1 v1 t1 cc, if_neg (Nat.ne_of_lt hltc), zero_add]
  | case3 c1 v1 t1 c2 v2 t2 hne hnlt ih =>
    intro h1 h2
    rw [List.map_cons] at h2
    have h2' := List.pairwise_cons.mp h2
    have hgt : c2 < c1 :=
      Nat.lt_of_le_of_ne (Nat.le_of_not_lt hnlt) (fun hh => hne hh.symm)
    rw [mj_cons, if_neg hne, if_neg hnlt, ih h1 h2'.2]
    refine congrArg List.sum (List.map_congr_left ?_)
    intro cc hcc
    have hcc_ge : c2 < cc := by
      rw [List.map_cons] at hcc
      rcases List.mem_cons.mp hcc with h | h
      · exact h ▸ hgt
      · rw [List.map_cons] at h1
        have h1' := List.pairwise_cons.mp h1
        exact Nat.lt_trans hgt (h1'.1 cc h)
    rw [lookupV_cons c2 v2 t2 cc, if_neg (Nat.ne_of_lt hcc_ge), zero_add]
  | case4 x1 x2 hfalse =>
    intro _ _
    rcases x1 with _ | ⟨⟨c1, v1⟩, t1⟩
    · rw [mj_nil_left]
      simp
    · rcases x2 with _ | ⟨⟨c2, v2⟩, t2⟩
      · rw [mj_nil_right]
        rw [eq_comm]
        apply sum_map_zero_of
        intro c _
        rw [lookupV_nil, mul_zero]
      · exact absurd rfl (fun hh => hfalse c1 v1 t1 c2 v2 t2 hh rfl)

end HiopSparse

namespace HiopSparse

/-! ## Row slices read through the row-start index equal row filters -/

lemma map_getD_range' {α : Type} [Inhabited α] (l : List α) :
    ∀ (n a : ℕ), a + n ≤ l.length →
      (List.range' a n).map (fun k => l.getD k default) = (l.drop a).take n := by
  intro n
  induction n with
  | zero => intro a _; simp
  | succ n ih =>
    intro a h
    have ha : a < l.length := by omega
    rw [List.range'_succ, List.map_cons, List.getD_eq_getElem l default ha,
      List.drop_eq_getElem_cons ha, List.take_succ_cons, ih (a + 1) (by omega)]

lemma filter_eq_drop_take {α : Type} (l : List α) (p : α → Bool) (a b : ℕ)
    (hab : a ≤ b) (hbl : b ≤ l.length)
    (hiff : ∀ k (hk : k < l.length), p l[k] = true ↔ (a ≤ k ∧ k < b)) :
    l.filter p = (l.drop a).take (b - a) := by
  have hd : l.drop a = (l.drop a).take (b - a) ++ l.drop b := by
    conv_lhs => rw [← List.take_append_drop (b - a) (l.drop a)]
    rw [List.drop_drop, Nat.add_sub_cancel' hab]
  conv_lhs => rw [← List.take_append_drop a l]
  rw [List.filter_append]
  have hfront : (l.take a).filter p = [] := by
    rw [List.filter_eq_nil_iff]
    intro x hx
    obtain ⟨k, hk, hkx⟩ := List.mem_iff_getElem.mp hx
    have hka : k < a := by
      have := hk
      rw [List.length_take] at this
      omega
    have hkl : k < l.length := by
      have := hk
      rw [List.length_take] at this
      omega
    rw [← hkx, List.getElem_take]
    intro hp
    exact absurd ((hiff k hkl).mp hp).1 (Nat.not_le.mpr hka)
  have hback : (l.drop b).filter p = [] := by
    rw [List.filter_eq_nil_iff]
    intro x hx
    obtain ⟨k, hk, hkx⟩ := List.mem_iff_getElem.mp hx
    have hkl : b + k < l.length := by
      have := hk
      rw [List.length_drop] at this
      omega
    rw [← hkx, List.getElem_drop]
    intro hp
    exact absurd ((hiff (b + k) hkl).mp hp).2 (by omega)
  have hmid : ((l.drop a).take (b - a)).filter p = (l.drop a).take (b - a) := by
    rw [List.filter_eq_self]
    intro x hx
    obtain ⟨k, hk, hkx⟩ := List.mem_iff_getElem.mp hx
    have hkb : k < b - a := by
      have := hk
      rw [List.length_take] at this
      omega
    have hkl : a + k < l.length := by
      have := hk
      rw [List.length_take, List.length_drop] at this
      omega
    rw [← hkx, List.getElem_take, List.getElem_drop]
    exact (hiff (a + k) hkl).mpr ⟨by omega, by omega⟩
  rw [hfront, List.nil_append]
  conv_lhs => rw [hd]
  rw [List.filter_append, hmid, hback, List.append_nil]

lemma rowSliceTriplets_eq_filter (A : SparseTriplet)
    (hs : A.rowsList.Pairwise (· ≤ ·)) (i : ℕ) :
    rowSliceTriplets A i = A.triplets.filter (fun t => t.row == i) := by
  have hmono := rowStartOff_mono_succ A.rowsList i
  have hlen : rowStartOff A.rowsList (i + 1) ≤ A.triplets.length := by
    have := rowStartOff_le_len A.rowsList (i + 1)
    rwa [rowsList_length A, SparseTriplet.nnz] at this
  rw [rowSliceTriplets,
    map_getD_range' A.triplets _ (rowStartOff A.rowsList i) (by omega)]
  rw [filter_eq_drop_take A.triplets (fun t => t.row == i) (rowStartOff A.rowsList i)
    (rowStartOff A.rowsList (i + 1)) hmono hlen ?_]
  intro k hk
  have hk' : k < A.rowsList.length := by rwa [rowsList_length A, SparseTriplet.nnz]
  have hg : A.rowsList.getD k 0 = A.triplets[k].row := by
    rw [SparseTriplet.rowsList, List.getD_eq_getElem _ _ (by simpa using hk),
      List.getElem_map]
  rw [beq_iff_eq, ← hg]
  exact rowStartOff_row_iff A.rowsList hs i k hk'

end HiopSparse

namespace HiopSparse

/-! ## Bridging the kernels to the mathematical weighted row inner product -/

lemma sum_map_add {α : Type} (l : List α) (g h : α → ℚ) :
    (l.map (fun x => g x + h x)).sum = (l.map g).sum + (l.map h).sum := by
  induction l with
  | nil => simp
  | cons x l ih =>
    simp only [List.map_cons, List.sum_cons, ih]
    ring

lemma sum_map_range'_single (f : ℕ → ℚ) :
    ∀ (n s j : ℕ), s ≤ j → j < s + n →
      (∀ k, s ≤ k → k < s + n → k ≠ j → f k = 0) →
      ((List.range' s n).map f).sum = f j := by
  intro n
  induction n with
  | zero => intro s j h1 h2 _; omega
  | succ n ih =>
    intro s j h1 h2 hz
    rw [List.range'_succ, List.map_cons, List.sum_cons]
    by_cases hs : s = j
    · subst hs
      have : ((List.range' (s + 1) n).map f).sum = 0 := by
        apply sum_map_zero_of
        intro k hk
        have hk' := List.mem_range'_1.mp hk
        exact hz k (by omega) (by omega) (by omega)
      rw [this, add_zero]
    · rw [hz s (le_refl s) (by omega) hs, zero_add]
      exact ih (s + 1) j (by omega) (by omega) (fun k hk1 hk2 => hz k (by omega) (by omega))

lemma sum_map_range_single (f : ℕ → ℚ) (n j : ℕ) (hj : j < n)
    (hz : ∀ k, k < n → k ≠ j → f k = 0) : ((List.range n).map f).sum = f j := by
  rw [List.range_eq_range']
  exact sum_map_range'_single f n 0 j (Nat.zero_le j) (by omega)
    (fun k _ hk2 hne => hz k (by omega) hne)

lemma sum_map_range'_zero (f : ℕ → ℚ) (s n : ℕ)
    (hz : ∀ k, s ≤ k → k < s + n → f k = 0) : ((List.range' s n).map f).sum = 0 := by
  apply sum_map_zero_of
  intro k hk
  have hk' := List.mem_range'_1.mp hk
  exact hz k hk'.1 hk'.2

lemma sum_range_restrict (n : ℕ) (f : ℕ → ℚ) :
    ∀ (cols : List ℕ), cols.Nodup → (∀ c ∈ cols, c < n) →
      ((List.range n).map (fun c => if c ∈ cols then f c else 0)).sum = (cols.map f).sum := by
  intro cols
  induction cols with
  | nil =>
    intro _ _
    rw [List.map_nil, List.sum_nil]
    apply sum_map_zero_of
    intro c _
    rw [if_neg (List.not_mem_nil c)]
  | cons c0 cs ih =>
    intro hnd hb
    have hc0 : c0 ∉ cs := (List.nodup_cons.mp hnd).1
    have hsplit : ((List.range n).map (fun c => if c ∈ c0 :: cs then f c else 0)).sum =
        ((List.range n).map (fun c => (if c = c0 then f c else 0) +
          (if c ∈ cs then f c else 0))).sum := by
      refine congrArg List.sum (List.map_congr_left ?_)
      intro c _
      by_cases h0 : c = c0
      · subst h0
        rw [if_pos (List.mem_cons_self c cs), if_pos rfl, if_neg hc0, add_zero]
      · rw [if_neg h0, zero_add]
        by_cases hcs : c ∈ cs
        · rw [if_pos hcs, if_pos (List.mem_cons_of_mem c0 hcs)]
        · rw [if_neg hcs, if_neg (by simp [h0, hcs])]
    rw [hsplit, sum_map_add,
      sum_map_range_single _ n c0 (hb c0 (List.mem_cons_self c0 cs))
        (fun k _ hk => if_neg hk),
      if_pos rfl, List.map_cons, List.sum_cons,
      ih (List.nodup_cons.mp hnd).2 (fun c hc => hb c (List.mem_cons_of_mem c0 hc))]

lemma sum_cols_to_range (cols : List ℕ) (n : ℕ) (f : ℕ → ℚ) (hnd : cols.Nodup)
    (hb : ∀ c ∈ cols, c < n) (hz : ∀ c, c < n → c ∉ cols → f c = 0) :
    (cols.map f).sum = ((List.range n).map f).sum := by
  rw [← sum_range_restrict n f cols hnd hb]
  refine congrArg List.sum (List.map_congr_left ?_)
  intro c hc
  by_cases h : c ∈ cols
  · rw [if_pos h]
  · rw [if_neg h, hz c (List.mem_range.mp hc) h]

end HiopSparse

namespace HiopSparse

lemma rows_sorted_of_lex (A : SparseTriplet)
    (h : A.triplets.Pairwise (fun t u => t.row < u.row ∨ (t.row = u.row ∧ t.col < u.col))) :
    A.rowsList.Pairwise (· ≤ ·) := by
  rw [SparseTriplet.rowsList, List.pairwise_map]
  exact h.imp (fun htu => htu.elim Nat.le_of_lt (fun hh => Nat.le_of_eq hh.1))

lemma cols_pairwise_of_lex (A : SparseTriplet)
    (hlex : A.triplets.Pairwise (fun t u => t.row < u.row ∨ (t.row = u.row ∧ t.col < u.col)))
    (i : ℕ) :
    ((A.triplets.filter (fun t => t.row == i)).map (fun t => t.col)).Pairwise (· < ·) := by
  rw [List.pairwise_map]
  refine List.Pairwise.imp_of_mem ?_ (hlex.filter _)
  intro t u ht hu htu
  have hti : t.row = i := by simpa using (List.mem_filter.mp ht).2
  have hui : u.row = i := by simpa using (List.mem_filter.mp hu).2
  rcases htu with h | h
  · rw [hti, hui] at h
    exact absurd h (Nat.lt_irrefl i)
  · exact h.2

lemma rowPairs_eq (A : SparseTriplet) (hs : A.rowsList.Pairwise (· ≤ ·)) (i : ℕ) :
    rowPairs A i = (A.triplets.filter (fun t => t.row == i)).map (fun t => (t.col, t.val)) := by
  rw [rowPairs, rowSliceTriplets_eq_filter A hs i]

lemma rowPairs_fst (A : SparseTriplet) (hs : A.rowsList.Pairwise (· ≤ ·)) (i : ℕ) :
    (rowPairs A i).map Prod.fst =
      (A.triplets.filter (fun t => t.row == i)).map (fun t => t.col) := by
  rw [rowPairs_eq A hs i, List.map_map]
  rfl

lemma lookupV_rowPairs (A : SparseTriplet) (hs : A.rowsList.Pairwise (· ≤ ·)) (i c : ℕ) :
    lookupV (rowPairs A i) c = entryVal A i c := by
  rw [lookupV, rowPairs_eq A hs i, List.filter_map, List.map_map, List.filter_filter, entryVal]
  have hf : List.filter
      (fun a => ((fun p => p.1 == c) ∘ fun t => (t.col, t.val)) a && a.row == i) A.triplets =
      List.filter (fun t => t.row == i && t.col == c) A.triplets := by
    refine List.filter_congr ?_
    intro t _
    show (t.col == c && t.row == i) = (t.row == i && t.col == c)
    exact Bool.and_comm _ _
  rw [hf]
  rfl

lemma entryVal_zero_of_not_mem (A : SparseTriplet) (i c : ℕ)
    (h : c ∉ (A.triplets.filter (fun t => t.row == i)).map (fun t => t.col)) :
    entryVal A i c = 0 := by
  rw [entryVal, List.filter_eq_nil_iff.mpr ?_]
  · rfl
  · intro t ht hp
    have hp' : t.row = i ∧ t.col = c := by simpa using hp
    exact h (List.mem_map.mpr ⟨t,
      List.mem_filter.mpr ⟨ht, by simpa using hp'.1⟩, hp'.2⟩)

lemma colsList_nodup (A : SparseTriplet)
    (hlex : A.triplets.Pairwise (fun t u => t.row < u.row ∨ (t.row = u.row ∧ t.col < u.col)))
    (i : ℕ) :
    ((A.triplets.filter (fun t => t.row == i)).map (fun t => t.col)).Nodup :=
  (cols_pairwise_of_lex A hlex i).imp (fun h => Nat.ne_of_lt h)

lemma colsList_bounded (A : SparseTriplet) (hcb : ∀ t ∈ A.triplets, t.col < A.ncols) (i : ℕ) :
    ∀ c ∈ (A.triplets.filter (fun t => t.row == i)).map (fun t => t.col), c < A.ncols := by
  intro c hc
  obtain ⟨t, ht, rfl⟩ := List.mem_map.mp hc
  exact hcb t (List.mem_filter.mp ht).1

lemma mergeJoin_rowPairs (A : SparseTriplet) (D : ℕ → ℚ)
    (hlex : A.triplets.Pairwise (fun t u => t.row < u.row ∨ (t.row = u.row ∧ t.col < u.col)))
    (hcb : ∀ t ∈ A.triplets, t.col < A.ncols) (i j : ℕ) :
    mergeJoin D (rowPairs A i) (rowPairs A j) = weightedRowInner A D i j := by
  have hs := rows_sorted_of_lex A hlex
  rw [mergeJoin_eq_sum D _ _
    (by rw [rowPairs_fst A hs i]; exact cols_pairwise_of_lex A hlex i)
    (by rw [rowPairs_fst A hs j]; exact cols_pairwise_of_lex A hlex j),
    rowPairs_fst A hs i]
  have hcongr : ((A.triplets.filter (fun t => t.row == i)).map (fun t => t.col)).map
      (fun c => lookupV (rowPairs A i) c / D c * lookupV (rowPairs A j) c) =
      ((A.triplets.filter (fun t => t.row == i)).map (fun t => t.col)).map
      (fun c => entryVal A i c / D c * entryVal A j c) := by
    refine List.map_congr_left ?_
    intro c _
    rw [lookupV_rowPairs A hs i c, lookupV_rowPairs A hs j c]
  rw [hcongr, weightedRowInner]
  exact sum_cols_to_range _ A.ncols _ (colsList_nodup A hlex i) (colsList_bounded A hcb i)
    (fun c _ hc => by
      rw [entryVal_zero_of_not_mem A i c hc, zero_div, zero_mul])

lemma diagAcc_eq_sum (D : ℕ → ℚ) (l : List (ℕ × ℚ)) (hnd : (l.map Prod.fst).Nodup) :
    diagAcc D l = ((l.map Prod.fst).map (fun c => lookupV l c / D c * lookupV l c)).sum := by
  rw [diagAcc, List.map_map]
  refine congrArg List.sum (List.map_congr_left ?_)
  intro p hp
  have := lookupV_self l hnd p hp
  show p.2 / D p.1 * p.2 = lookupV l p.1 / D p.1 * lookupV l p.1
  rw [this]

lemma diagAcc_rowPairs (A : SparseTriplet) (D : ℕ → ℚ)
    (hlex : A.triplets.Pairwise (fun t u => t.row < u.row ∨ (t.row = u.row ∧ t.col < u.col)))
    (hcb : ∀ t ∈ A.triplets, t.col < A.ncols) (i : ℕ) :
    diagAcc D (rowPairs A i) = weightedRowInner A D i i := by
  have hs := rows_sorted_of_lex A hlex
  rw [diagAcc_eq_sum D _ (by rw [rowPairs_fst A hs i]; exact colsList_nodup A hlex i),
    rowPairs_fst A hs i]
  have hcongr : ((A.triplets.filter (fun t => t.row == i)).map (fun t => t.col)).map
      (fun c => lookupV (rowPairs A i) c / D c * lookupV (rowPairs A i) c) =
      ((A.triplets.filter (fun t => t.row == i)).map (fun t => t.col)).map
      (fun c => entryVal A i c / D c * entryVal A i c) := by
    refine List.map_congr_left ?_
    intro c _
    rw [lookupV_rowPairs A hs i c]
  rw [hcongr, weightedRowInner]
  exact sum_cols_to_range _ A.ncols _ (colsList_nodup A hlex i) (colsList_bounded A hcb i)
    (fun c _ hc => by
      rw [entryVal_zero_of_not_mem A i c hc, zero_div, zero_mul])

end HiopSparse

namespace HiopSparse

/-! ## Unfolding the nested write loops of the Gram-product kernels -/

lemma applyAdds_apply (L : List ((ℕ × ℕ) × ℚ)) (W : ℕ → ℕ → ℚ) (a b : ℕ) :
    applyAdds L W a b =
      W a b + (L.map (fun p => if p.1.1 = a ∧ p.1.2 = b then p.2 else 0)).sum :=
  foldlUpdAdd_apply L Prod.fst Prod.snd W a b

lemma applyAdds_append (L1 L2 : List ((ℕ × ℕ) × ℚ)) (W : ℕ → ℕ → ℚ) :
    applyAdds (L1 ++ L2) W = applyAdds L2 (applyAdds L1 W) := by
  rw [applyAdds, applyAdds, applyAdds, List.foldl_append]

lemma applyAdds_flatMap {α : Type} (l : List α) (f : α → List ((ℕ × ℕ) × ℚ))
    (W : ℕ → ℕ → ℚ) :
    applyAdds (l.flatMap f) W = l.foldl (fun W x => applyAdds (f x) W) W := by
  induction l generalizing W with
  | nil => rfl
  | cons x l ih =>
    rw [List.flatMap_cons, applyAdds_append, List.foldl_cons, ih]

lemma applyAdds_map_writes {α : Type} (l : List α) (key : α → ℕ × ℕ) (q : α → ℚ)
    (W : ℕ → ℕ → ℚ) :
    applyAdds (l.map (fun x => (key x, q x))) W =
      l.foldl (fun W x => updAdd W (key x).1 (key x).2 (q x)) W := by
  induction l generalizing W with
  | nil => rfl
  | cons x l ih =>
    rw [List.map_cons, applyAdds, List.foldl_cons, List.foldl_cons, ← applyAdds, ih]

lemma addMDinvM_eq_applyAdds (A : SparseTriplet) (d : ℕ) (alpha : ℚ) (D : ℕ → ℚ)
    (W : ℕ → ℕ → ℚ) :
    addMDinvMtransToDiagBlockOfSymDeMatUTri A d alpha D W =
      applyAdds (diagBlockWrites A d alpha D) W := by
  rw [diagBlockWrites, applyAdds_flatMap, addMDinvMtransToDiagBlockOfSymDeMatUTri]
  have hfun : (fun (W0 : ℕ → ℕ → ℚ) (i : ℕ) =>
      applyAdds (((i + d, i + d), alpha * diagAcc D (rowPairs A i)) ::
        (List.range' (i + 1) (A.nrows - (i + 1))).map
          (fun j => ((i + d, j + d), alpha * mergeJoin D (rowPairs A i) (rowPairs A j)))) W0) =
      (fun (W0 : ℕ → ℕ → ℚ) (i : ℕ) =>
        (List.range' (i + 1) (A.nrows - (i + 1))).foldl
          (fun W2 j =>
            updAdd W2 (i + d) (j + d) (alpha * mergeJoin D (rowPairs A i) (rowPairs A j)))
          (updAdd W0 (i + d) (i + d) (alpha * diagAcc D (rowPairs A i)))) := by
    funext W0 i
    have hcons : applyAdds (((i + d, i + d), alpha * diagAcc D (rowPairs A i)) ::
        (List.range' (i + 1) (A.nrows - (i + 1))).map
          (fun j => ((i + d, j + d), alpha * mergeJoin D (rowPairs A i) (rowPairs A j)))) W0 =
        applyAdds ((List.range' (i + 1) (A.nrows - (i + 1))).map
          (fun j => ((i + d, j + d), alpha * mergeJoin D (rowPairs A i) (rowPairs A j))))
          (updAdd W0 (i + d) (i + d) (alpha * diagAcc D (rowPairs A i))) := rfl
    rw [hcons]
    exact applyAdds_map_writes (List.range' (i + 1) (A.nrows - (i + 1)))
      (fun j => (i + d, j + d))
      (fun j => alpha * mergeJoin D (rowPairs A i) (rowPairs A j))
      (updAdd W0 (i + d) (i + d) (alpha * diagAcc D (rowPairs A i)))
  rw [hfun]

end HiopSparse

namespace HiopSparse

lemma sum_map_flatMap {α β : Type} (l : List α) (f : α → List β) (g : β → ℚ) :
    ((l.flatMap f).map g).sum = (l.map (fun x => ((f x).map g).sum)).sum := by
  induction l with
  | nil => rfl
  | cons x l ih =>
    rw [List.flatMap_cons, List.map_append, List.sum_append, ih, List.map_cons,
      List.sum_cons]

lemma diagBlockWrites_sum_at (A : SparseTriplet) (d : ℕ) (alpha : ℚ) (D : ℕ → ℚ)
    (i j : ℕ) (hij : i ≤ j) (hj : j < A.nrows) :
    ((diagBlockWrites A d alpha D).map
      (fun p => if p.1.1 = i + d ∧ p.1.2 = j + d then p.2 else 0)).sum =
      if i = j then alpha * diagAcc D (rowPairs A i)
      else alpha * mergeJoin D (rowPairs A i) (rowPairs A j) := by
  rw [diagBlockWrites, sum_map_flatMap]
  rw [sum_map_range_single _ A.nrows i (Nat.lt_of_le_of_lt hij hj) ?zero]
  case zero =>
    intro k hk hki
    rw [List.map_cons, List.sum_cons, if_neg (fun hh : k + d = i + d ∧ _ => hki (by omega)),
      List.map_map]
    rw [sum_map_range'_zero _ _ _ (fun j' _ _ => ?_), add_zero]
    show (if k + d = i + d ∧ j' + d = j + d then
      alpha * mergeJoin D (rowPairs A k) (rowPairs A j') else 0) = 0
    exact if_neg (fun hh => hki (by omega))
  rw [List.map_cons, List.sum_cons, List.map_map]
  by_cases hd : i = j
  · subst hd
    rw [if_pos ⟨rfl, rfl⟩, if_pos rfl,
      sum_map_range'_zero _ _ _ (fun j' hj1 hj2 => ?_), add_zero]
    show (if i + d = i + d ∧ j' + d = i + d then
      alpha * mergeJoin D (rowPairs A i) (rowPairs A j') else 0) = 0
    exact if_neg (fun hh => by omega)
  · rw [if_neg (fun hh : i + d = i + d ∧ i + d = j + d => hd (by omega)), if_neg hd,
      zero_add]
    rw [sum_map_range'_single _ (A.nrows - (i + 1)) (i + 1) j (by omega) (by omega)
      (fun k hk1 hk2 hkj => ?_)]
    · show (if i + d = i + d ∧ j + d = j + d then
        alpha * mergeJoin D (rowPairs A i) (rowPairs A j) else 0) =
        alpha * mergeJoin D (rowPairs A i) (rowPairs A j)
      exact if_pos ⟨rfl, rfl⟩
    · show (if i + d = i + d ∧ k + d = j + d then
        alpha * mergeJoin D (rowPairs A i) (rowPairs A k) else 0) = 0
      exact if_neg (fun hh => hkj (by omega))

lemma diagBlockWrites_sum_zero (A : SparseTriplet) (d : ℕ) (alpha : ℚ) (D : ℕ → ℚ)
    (a b : ℕ) (h : ¬(d ≤ a ∧ a ≤ b ∧ b < A.nrows + d)) :
    ((diagBlockWrites A d alpha D).map
      (fun p => if p.1.1 = a ∧ p.1.2 = b then p.2 else 0)).sum = 0 := by
  rw [diagBlockWrites, sum_map_flatMap]
  apply sum_map_zero_of
  intro i hi
  have hi' : i < A.nrows := List.mem_range.mp hi
  rw [List.map_cons, List.sum_cons, List.map_map]
  rw [if_neg (fun hh : i + d = a ∧ i + d = b => h ⟨by omega, by omega, by omega⟩),
    zero_add]
  apply sum_map_zero_of
  intro j' hj'
  have hj'' := List.mem_range'_1.mp hj'
  show (if i + d = a ∧ j' + d = b then
    alpha * mergeJoin D (rowPairs A i) (rowPairs A j') else 0) = 0
  exact if_neg (fun hh => h ⟨by omega, by omega, by omega⟩)

/-- C5: `addMDinvMtransToDiagBlockOfSymDeMatUTri(dest_start, alpha, D, W)`
on a row-major-sorted matrix with strictly increasing column indices within
each row and nonzero `D` adds `alpha · A · diag(D)⁻¹ · Aᵀ` into the diagonal
block at `(dest_start, dest_start)`, writing only entries with block-local
`i ≤ j`; each written entry receives the merge-join weighted dot product
`∑ₖ A[i,k]/D[k]·A[j,k]` over common columns (`weightedRowInner`).  In
particular for a one-row matrix `A=[a]` and `D=[d]` it adds exactly
`alpha·a²/d` to the single destination entry. -/
theorem c5_addMDinvMtrans_spec :
    (∀ (A : SparseTriplet) (d : ℕ) (alpha : ℚ) (D : ℕ → ℚ) (W : ℕ → ℕ → ℚ),
      A.triplets.Pairwise (fun t u => t.row < u.row ∨ (t.row = u.row ∧ t.col < u.col)) →
      (∀ t ∈ A.triplets, t.col < A.ncols) →
      (∀ c, c < A.ncols → D c ≠ 0) →
      (∀ i j, i ≤ j → j < A.nrows →
        addMDinvMtransToDiagBlockOfSymDeMatUTri A d alpha D W (i + d) (j + d) =
          W (i + d) (j + d) + alpha * weightedRowInner A D i j) ∧
      (∀ a b, ¬(d ≤ a ∧ a ≤ b ∧ b < A.nrows + d) →
        addMDinvMtransToDiagBlockOfSymDeMatUTri A d alpha D W a b = W a b)) ∧
    (∀ (av dv alpha : ℚ) (d : ℕ) (W : ℕ → ℕ → ℚ), dv ≠ 0 →
      addMDinvMtransToDiagBlockOfSymDeMatUTri ⟨1, 1, [⟨0, 0, av⟩]⟩ d alpha
          (fun _ => dv) W d d =
        W d d + alpha * (av * av / dv)) := by
  have hmain : ∀ (A : SparseTriplet) (d : ℕ) (alpha : ℚ) (D : ℕ → ℚ) (W : ℕ → ℕ → ℚ),
      A.triplets.Pairwise (fun t u => t.row < u.row ∨ (t.row = u.row ∧ t.col < u.col)) →
      (∀ t ∈ A.triplets, t.col < A.ncols) →
      (∀ c, c < A.ncols → D c ≠ 0) →
      (∀ i j, i ≤ j → j < A.nrows →
        addMDinvMtransToDiagBlockOfSymDeMatUTri A d alpha D W (i + d) (j + d) =
          W (i + d) (j + d) + alpha * weightedRowInner A D i j) ∧
      (∀ a b, ¬(d ≤ a ∧ a ≤ b ∧ b < A.nrows + d) →
        addMDinvMtransToDiagBlockOfSymDeMatUTri A d alpha D W a b = W a b) := by
    intro A d alpha D W hlex hcb _
    constructor
    · intro i j hij hj
      rw [addMDinvM_eq_applyAdds, applyAdds_apply,
        diagBlockWrites_sum_at A d alpha D i j hij hj]
      by_cases hd : i = j
      · subst hd
        rw [if_pos rfl, diagAcc_rowPairs A D hlex hcb i]
      · rw [if_neg hd, mergeJoin_rowPairs A D hlex hcb i j]
    · intro a b hab
      rw [addMDinvM_eq_applyAdds, applyAdds_apply,
        diagBlockWrites_sum_zero A d alpha D a b hab, add_zero]
  refine ⟨hmain, ?_⟩
  intro av dv alpha d W hdv
  have h := (hmain ⟨1, 1, [⟨0, 0, av⟩]⟩ d alpha (fun _ => dv) W
    (List.pairwise_singleton _ _)
    (by intro t ht; simp at ht; rw [ht]; exact Nat.zero_lt_one)
    (fun c _ => hdv)).1 0 0 (le_refl 0) Nat.zero_lt_one
  rw [Nat.zero_add] at h
  rw [h]
  have hw : weightedRowInner ⟨1, 1, [⟨0, 0, av⟩]⟩ (fun _ => dv) 0 0 = av / dv * av := by
    simp [weightedRowInner, entryVal, List.range_succ]
  rw [hw]
  ring

end HiopSparse

namespace HiopSparse

/-- Witness for C5 at concrete inputs. -/
theorem c5_witness :
    (exRect.triplets.Pairwise
        (fun t u => t.row < u.row ∨ (t.row = u.row ∧ t.col < u.col)) ∧
      (∀ t ∈ exRect.triplets, t.col < exRect.ncols) ∧ (0 : ℕ) ≤ 1 ∧ 1 < exRect.nrows ∧
      (2 : ℚ) ≠ 0) ∧
    addMDinvMtransToDiagBlockOfSymDeMatUTri exRect 2 3 (fun _ => 1) (fun _ _ => 0)
        (0 + 2) (1 + 2) =
      (fun _ _ => (0 : ℚ)) (0 + 2) (1 + 2) + 3 * weightedRowInner exRect (fun _ => 1) 0 1 ∧
    addMDinvMtransToDiagBlockOfSymDeMatUTri ⟨1, 1, [⟨0, 0, 5⟩]⟩ 4 3 (fun _ => 2)
        (fun _ _ => 0) 4 4 =
      (fun _ _ => (0 : ℚ)) 4 4 + 3 * (5 * 5 / 2) :=
  ⟨⟨by decide, by decide, by decide, by decide, by norm_num⟩,
    ((c5_addMDinvMtrans_spec.1 exRect 2 3 (fun _ => 1) (fun _ _ => 0) (by decide)
        (by decide) (fun c _ => by norm_num)).1 0 1 (by decide) (by decide)),
    c5_addMDinvMtrans_spec.2 5 2 3 4 (fun _ _ => 0) (by norm_num)⟩

end HiopSparse

namespace HiopSparse

/-! ## Claim C3: deep-check behaviour of addMDinvNtransToSymDeMatUTri -/

lemma deepWriteGo_abort (M1 M2 : SparseTriplet) (rds cds : ℕ) (alpha : ℚ) (D : ℕ → ℚ) :
    ∀ (pairs : List (ℕ × ℕ)) (W : ℕ → ℕ → ℚ),
      (∃ p ∈ pairs, p.2 + cds < p.1 + rds) →
      deepWriteGo M1 M2 rds cds alpha D pairs W = ([lowerTriWarning], none) := by
  intro pairs
  induction pairs with
  | nil =>
    intro W h
    obtain ⟨p, hp, _⟩ := h
    exact absurd hp (List.not_mem_nil p)
  | cons q rest ih =>
    intro W h
    obtain ⟨i, j⟩ := q
    by_cases hc : j + cds < i + rds
    · rw [deepWriteGo, if_pos hc]
    · rw [deepWriteGo, if_neg hc]
      refine ih _ ?_
      obtain ⟨p, hp, hpv⟩ := h
      rcases List.mem_cons.mp hp with hh | hh
      · rw [hh] at hpv
        exact absurd hpv hc
      · exact ⟨p, hh, hpv⟩

lemma deepWriteGo_ok (M1 M2 : SparseTriplet) (rds cds : ℕ) (alpha : ℚ) (D : ℕ → ℚ) :
    ∀ (pairs : List (ℕ × ℕ)) (W : ℕ → ℕ → ℚ),
      (∀ p ∈ pairs, p.1 + rds ≤ p.2 + cds) →
      deepWriteGo M1 M2 rds cds alpha D pairs W =
        ([], some (applyAdds (pairs.map (fun p => ((p.1 + rds, p.2 + cds),
          alpha * mergeJoin D (rowPairs M1 p.1) (rowPairs M2 p.2)))) W)) := by
  intro pairs
  induction pairs with
  | nil => intro W _; rfl
  | cons q rest ih =>
    intro W h
    obtain ⟨i, j⟩ := q
    rw [deepWriteGo,
      if_neg (Nat.not_lt.mpr (h (i, j) (List.mem_cons_self (i, j) rest))),
      ih _ (fun p hp => h p (List.mem_cons_of_mem (i, j) hp))]
    rfl

lemma mem_allPairs (m1 m2 : ℕ) (p : ℕ × ℕ) :
    p ∈ allPairs m1 m2 ↔ p.1 < m1 ∧ p.2 < m2 := by
  rw [allPairs, List.mem_flatMap]
  constructor
  · rintro ⟨i, hi, hp⟩
    obtain ⟨j, hj, rfl⟩ := List.mem_map.mp hp
    exact ⟨List.mem_range.mp hi, List.mem_range.mp hj⟩
  · rintro ⟨h1, h2⟩
    exact ⟨p.1, List.mem_range.mpr h1,
      List.mem_map.mpr ⟨p.2, List.mem_range.mpr h2, Prod.mk.eta⟩⟩

lemma allPairs_writes_at (m1 m2 rds cds : ℕ) (δ : ℕ → ℕ → ℚ) (i j : ℕ)
    (hi : i < m1) (hj : j < m2) :
    (((allPairs m1 m2).map (fun p => ((p.1 + rds, p.2 + cds), δ p.1 p.2))).map
      (fun p => if p.1.1 = i + rds ∧ p.1.2 = j + cds then p.2 else 0)).sum = δ i j := by
  rw [List.map_map, allPairs, sum_map_flatMap]
  rw [sum_map_range_single _ m1 i hi ?zero]
  case zero =>
    intro k _ hki
    rw [List.map_map]
    apply sum_map_zero_of
    intro j' _
    show (if k + rds = i + rds ∧ j' + cds = j + cds then δ k j' else 0) = 0
    exact if_neg (fun hh => hki (by omega))
  rw [List.map_map]
  rw [sum_map_range_single _ m2 j hj (fun k _ hkj => ?_)]
  · show (if i + rds = i + rds ∧ j + cds = j + cds then δ i j else 0) = δ i j
    exact if_pos ⟨rfl, rfl⟩
  · show (if i + rds = i + rds ∧ k + cds = j + cds then δ i k else 0) = 0
    exact if_neg (fun hh => hkj (by omega))

/-- C3 (counterexample): With `M1 = M2` the 1×1 matrix `[(0,0,1)]`,
`row_dest_start = 1`, `col_dest_start = 0`, the only written destination pair
`(0+1, 0+0)` falls strictly below the diagonal: under `HIOP_DEEPCHECKS` the
call prints the warning and then fails the hard
`assert(i+row_dest_start <= j+col_dest_start)` — it does NOT complete, and no
accumulation is performed. -/
theorem c3_deep_counterexample :
    (addMDinvNtransToSymDeMatUTriDeep exOne exOne 1 0 1 (fun _ => 1)
      (fun _ _ => 0)).2 = none ∧
    (addMDinvNtransToSymDeMatUTriDeep exOne exOne 1 0 1 (fun _ => 1)
      (fun _ _ => 0)).1 = [lowerTriWarning] := by
  constructor <;> rfl

/-- C3 (amended): Under `HIOP_DEEPCHECKS`, `addMDinvNtransToSymDeMatUTri`
completes — performing the merge-join accumulation for every `(i, j)` pair and
printing no warning — exactly when every written destination pair lies on or
above the diagonal; when some written destination falls strictly below the
diagonal the call prints the warning and then fails the hard assertion
(aborting without completing). -/
theorem c3_deep_amended :
    ∀ (M1 M2 : SparseTriplet) (rds cds : ℕ) (alpha : ℚ) (D : ℕ → ℚ)
      (W : ℕ → ℕ → ℚ),
      ((∀ i j, i < M1.nrows → j < M2.nrows → i + rds ≤ j + cds) →
        (addMDinvNtransToSymDeMatUTriDeep M1 M2 rds cds alpha D W).1 = [] ∧
        ∃ W', (addMDinvNtransToSymDeMatUTriDeep M1 M2 rds cds alpha D W).2 = some W' ∧
          ∀ i j, i < M1.nrows → j < M2.nrows →
            W' (i + rds) (j + cds) = W (i + rds) (j + cds) +
              alpha * mergeJoin D (rowPairs M1 i) (rowPairs M2 j)) ∧
      ((∃ i j, i < M1.nrows ∧ j < M2.nrows ∧ j + cds < i + rds) →
        (addMDinvNtransToSymDeMatUTriDeep M1 M2 rds cds alpha D W).2 = none ∧
        (addMDinvNtransToSymDeMatUTriDeep M1 M2 rds cds alpha D W).1 =
          [lowerTriWarning]) := by
  intro M1 M2 rds cds alpha D W
  constructor
  · intro hok
    rw [addMDinvNtransToSymDeMatUTriDeep,
      deepWriteGo_ok M1 M2 rds cds alpha D (allPairs M1.nrows M2.nrows) W
        (fun p hp => hok p.1 p.2 ((mem_allPairs _ _ p).mp hp).1
          ((mem_allPairs _ _ p).mp hp).2)]
    refine ⟨rfl, _, rfl, ?_⟩
    intro i j hi hj
    rw [applyAdds_apply,
      allPairs_writes_at M1.nrows M2.nrows rds cds
        (fun a b => alpha * mergeJoin D (rowPairs M1 a) (rowPairs M2 b)) i j hi hj]
  · intro hbad
    obtain ⟨i, j, hi, hj, hv⟩ := hbad
    rw [addMDinvNtransToSymDeMatUTriDeep,
      deepWriteGo_abort M1 M2 rds cds alpha D (allPairs M1.nrows M2.nrows) W
        ⟨(i, j), (mem_allPairs _ _ (i, j)).mpr ⟨hi, hj⟩, hv⟩]
    exact ⟨rfl, rfl⟩

/-- Witness for C3 (amended) at concrete inputs. -/
theorem c3_witness :
    ((∀ i j, i < exOne.nrows → j < exOne.nrows → i + 0 ≤ j + 0) ∧
      (addMDinvNtransToSymDeMatUTriDeep exOne exOne 0 0 1 (fun _ => 1)
        (fun _ _ => 0)).1 = [] ∧
      ∃ W', (addMDinvNtransToSymDeMatUTriDeep exOne exOne 0 0 1 (fun _ => 1)
          (fun _ _ => 0)).2 = some W' ∧
        ∀ i j, i < exOne.nrows → j < exOne.nrows →
          W' (i + 0) (j + 0) = (fun _ _ => (0 : ℚ)) (i + 0) (j + 0) +
            1 * mergeJoin (fun _ => 1) (rowPairs exOne i) (rowPairs exOne j)) ∧
    ((∃ i j, i < exOne.nrows ∧ j < exOne.nrows ∧ j + 0 < i + 1) ∧
      (addMDinvNtransToSymDeMatUTriDeep exOne exOne 1 0 1 (fun _ => 1)
        (fun _ _ => 0)).2 = none) :=
  ⟨⟨fun i j hi hj => by
        rw [show exOne.nrows = 1 from rfl] at hi hj
        omega,
      (c3_deep_amended exOne exOne 0 0 1 (fun _ => 1) (fun _ _ => 0)).1
        (fun i j hi hj => by
          rw [show exOne.nrows = 1 from rfl] at hi hj
          omega)⟩,
    ⟨⟨0, 0, Nat.zero_lt_one, Nat.zero_lt_one, by omega⟩,
      ((c3_deep_amended exOne exOne 1 0 1 (fun _ => 1) (fun _ _ => 0)).2
        ⟨0, 0, Nat.zero_lt_one, Nat.zero_lt_one, by omega⟩).1⟩⟩

end HiopSparse

namespace HiopSparse

/-! ## Claim C6: host-mirror aliasing and copyToDev/copyFromDev -/

/-- C6 (counterexample): The constructor branches on
`mem_space_ == "DEVICE"`, not on "distinct from the host space": for the
memory space `"UM"` (a GPU build with a unified-memory allocator, distinct
from `"HOST"`), the host mirror still aliases the device arrays and
`copyToDev`/`copyFromDev` are still no-ops, contradicting the claim's
"exactly when the memory space equals the host space". -/
theorem c6_memspace_counterexample :
    (mkRajaMatState true "UM" [0] [0] [1]).hostAliasesDev = true ∧
    (mkRajaMatState true "UM" [0] [0] [1]).mem_space ≠ "HOST" ∧
    copyFromDev (mkRajaMatState true "UM" [0] [0] [1]) =
      mkRajaMatState true "UM" [0] [0] [1] ∧
    copyToDev (mkRajaMatState true "UM" [0] [0] [1]) =
      mkRajaMatState true "UM" [0] [0] [1] := by
  refine ⟨rfl, by decide, ?_, ?_⟩
  · rw [copyFromDev, if_neg (by decide)]
  · rw [copyToDev, if_neg (by decide)]

/-- C6 (amended): For every constructed sparse triplet matrix state: the
host mirror aliases the device arrays (no separate host allocation) exactly
when the memory space is NOT the device space `"DEVICE"`; correspondingly
`copyToDev`/`copyFromDev` are no-ops exactly on states whose memory space is
not `"DEVICE"`, and otherwise copy all three buffers between the two
spaces. -/
theorem c6_memspace_amended :
    (∀ (use_gpu : Bool) (ms : String) (r c : List ℕ) (v : List ℚ),
      ((mkRajaMatState use_gpu ms r c v).hostAliasesDev = true ↔
        (mkRajaMatState use_gpu ms r c v).mem_space ≠ "DEVICE")) ∧
    (∀ s : RajaMatState, s.mem_space ≠ "DEVICE" → copyFromDev s = s ∧ copyToDev s = s) ∧
    (∀ s : RajaMatState, s.mem_space = "DEVICE" →
      (copyFromDev s).hostRows = s.devRows ∧ (copyFromDev s).hostCols = s.devCols ∧
      (copyFromDev s).hostVals = s.devVals ∧ (copyFromDev s).devRows = s.devRows ∧
      (copyFromDev s).devCols = s.devCols ∧ (copyFromDev s).devVals = s.devVals ∧
      (copyToDev s).devRows = s.hostRows ∧ (copyToDev s).devCols = s.hostCols ∧
      (copyToDev s).devVals = s.hostVals) := by
  refine ⟨?_, ?_, ?_⟩
  · intro use_gpu ms r c v
    simp [mkRajaMatState]
  · intro s hd
    rw [copyFromDev, if_neg hd, copyToDev, if_neg hd]
    exact ⟨rfl, rfl⟩
  · intro s hd
    rw [copyFromDev, copyToDev, if_pos hd, if_pos hd]
    exact ⟨rfl, rfl, rfl, rfl, rfl, rfl, rfl, rfl, rfl⟩

/-- Witness for C6 (amended) at concrete inputs. -/
theorem c6_witness :
    ((mkRajaMatState true "DEVICE" [0] [0] [1]).hostAliasesDev = true ↔
      (mkRajaMatState true "DEVICE" [0] [0] [1]).mem_space ≠ "DEVICE") ∧
    ((mkRajaMatState false "DEVICE" [0] [0] [1]).mem_space ≠ "DEVICE" ∧
      copyFromDev (mkRajaMatState false "DEVICE" [0] [0] [1]) =
        mkRajaMatState false "DEVICE" [0] [0] [1]) ∧
    ((mkRajaMatState true "DEVICE" [0] [0] [1]).mem_space = "DEVICE" ∧
      (copyFromDev (mkRajaMatState true "DEVICE" [0] [0] [1])).hostRows =
        (mkRajaMatState true "DEVICE" [0] [0] [1]).devRows) :=
  ⟨c6_memspace_amended.1 true "DEVICE" [0] [0] [1],
    ⟨by decide,
      (c6_memspace_amended.2.1 (mkRajaMatState false "DEVICE" [0] [0] [1])
        (by decide)).1⟩,
    ⟨rfl,
      (c6_memspace_amended.2.2 (mkRajaMatState true "DEVICE" [0] [0] [1]) rfl).1⟩⟩

end HiopSparse
